import Mathlib

/-!
Verification development for the HTML parsing service
(src/src/parser/parser.service.ts).

The service is embedded shallowly:

* JavaScript strings are modeled as List Char (with String wrappers at the
  API boundary).  The regex-based replacements of sanitizeContent are
  modeled by executable recursions that implement the exact semantics of
  the literal patterns appearing in the source
  (String.prototype.replace with a global or non-global literal regex).
* The node-html-parser DOM is modeled by the inductive type HNode:
  an element carries its raw tag name, attribute list and children; text
  and comment nodes carry their raw text; root is the container element
  returned by the library parse function (tagName null).
* External collaborators (the crypto hash, the image fetch, URL
  resolution, the LLM call, JSON.parse / JSON.stringify, and the
  node-html-parser parse applied to the raw input document) are passed as
  explicit function parameters, since their code is outside this
  repository.  Filesystem writes are modeled by a store mapping file
  names to file contents.
-/

namespace ParserService

/-- Whitespace class of JavaScript regular expressions (the class \s of
ECMAScript 2017 and later), which is also the character set trimmed by
String.prototype.trim. -/
def jsWs (c : Char) : Bool :=
  c = ' ' || c = '\t' || c = '\n' || c = '\x0b' || c = '\x0c' || c = '\r' ||
  c.toNat = 0xA0 || c.toNat = 0x1680 ||
  (0x2000 ≤ c.toNat && c.toNat ≤ 0x200A) ||
  c.toNat = 0x2028 || c.toNat = 0x2029 || c.toNat = 0x202F ||
  c.toNat = 0x205F || c.toNat = 0x3000 || c.toNat = 0xFEFF

theorem takeWhile_len_le {α : Type} (p : α → Bool) (l : List α) :
    (l.takeWhile p).length ≤ l.length := by
  induction l with
  | nil => simp
  | cons a as ih =>
    by_cases h : p a
    · simp [List.takeWhile, h]
      omega
    · simp [List.takeWhile, h]

theorem dropWhile_len_le {α : Type} (p : α → Bool) (l : List α) :
    (l.dropWhile p).length ≤ l.length := by
  induction l with
  | nil => simp
  | cons a as ih =>
    by_cases h : p a
    · simp [List.dropWhile, h]
      omega
    · simp [List.dropWhile, h]

/-- Decidable test for one list being a contiguous substring of another;
models the matching of a literal (non-empty) regex pattern somewhere in a
JavaScript string. -/
def hasSub (pat : List Char) : List Char → Bool
  | [] => pat.isEmpty
  | c :: s => pat.isPrefixOf (c :: s) || hasSub pat s

/-- Model of JavaScript s.replace(pat, rep) with a global literal regex
pat: every leftmost non-overlapping occurrence is replaced, scanning
resuming after the replaced occurrence.  The pattern is passed as head
and tail so that it is non-empty by construction. -/
def replAll (p : Char) (pt rep : List Char) : List Char → List Char
  | [] => []
  | c :: s =>
    if (p :: pt).isPrefixOf (c :: s) then rep ++ replAll p pt rep (s.drop pt.length)
    else c :: replAll p pt rep s
termination_by l => l.length
decreasing_by
  · simp only [List.length_cons, List.length_drop]
    omega
  · simp only [List.length_cons]
    omega

/-- ASCII lower casing, as performed by case-insensitive matching of an
ASCII literal pattern in a JavaScript regex (non-ASCII characters never
canonicalize to ASCII ones, so they are left unchanged). -/
def lowerC (c : Char) : Char :=
  if 'A' ≤ c ∧ c ≤ 'Z' then Char.ofNat (c.toNat + 32) else c

/-- ASCII upper casing of a character. -/
def upperC (c : Char) : Char :=
  if 'a' ≤ c ∧ c ≤ 'z' then Char.ofNat (c.toNat - 32) else c

/-- ASCII lower casing of a string, modeling JavaScript toLowerCase on
the ASCII tag names in scope. -/
def lowerStr (s : String) : String :=
  String.mk (s.toList.map lowerC)

/-- ASCII upper casing of a string, modeling JavaScript toUpperCase on
the ASCII tag names in scope. -/
def upperStr (s : String) : String :=
  String.mk (s.toList.map upperC)

/-- Case-insensitive prefix test for an ASCII literal pattern. -/
def ciStarts (pat s : List Char) : Bool :=
  (pat.map lowerC).isPrefixOf (s.map lowerC)

/-- Case-insensitive occurrence test for an ASCII literal pattern. -/
def ciHasSub (pat s : List Char) : Bool :=
  hasSub (pat.map lowerC) (s.map lowerC)

/-- Model of JavaScript s.replace(re, two-arg-empty) with a non-global
case-insensitive literal regex: only the first (leftmost) occurrence,
anywhere in the string, is removed.  This is the doctype removal step of
sanitizeContent, line 256 of parser.service.ts. -/
def stripFirstCI (pat : List Char) : List Char → List Char
  | [] => []
  | c :: s =>
    if ciStarts pat (c :: s) then (c :: s).drop pat.length
    else c :: stripFirstCI pat s

/-- Splitting a list at its last newline: splitLastNl l = some (a, b)
when l = a ++ newline :: b and b holds no newline; none when l holds no
newline. -/
def splitLastNl : List Char → Option (List Char × List Char)
  | [] => none
  | c :: s =>
    match splitLastNl s with
    | some (a, b) => some (c :: a, b)
    | none => if c = '\n' then some ([], s) else none

theorem splitLastNl_eq {l a b : List Char} (h : splitLastNl l = some (a, b)) :
    l = a ++ '\n' :: b := by
  induction l generalizing a b with
  | nil => simp [splitLastNl] at h
  | cons c s ih =>
    simp only [splitLastNl] at h
    rcases hs : splitLastNl s with - | ⟨a0, b0⟩
    · rw [hs] at h
      by_cases hc : c = '\n'
      · simp [hc] at h
        simp [hc, h.1, h.2]
      · simp [hc] at h
    · rw [hs] at h
      simp only [Option.some.injEq, Prod.mk.injEq] at h
      rcases h with ⟨h1, h2⟩
      subst h2
      rw [← h1]
      simpa using ih hs

theorem splitLastNl_none {l : List Char} (h : splitLastNl l = none) :
    '\n' ∉ l := by
  induction l with
  | nil => simp
  | cons c s ih =>
    simp only [splitLastNl] at h
    rcases hs : splitLastNl s with - | ⟨a0, b0⟩
    · rw [hs] at h
      by_cases hc : c = '\n'
      · simp [hc] at h
      · simp [hc] at h ⊢
        exact ⟨fun he => hc he.symm, ih hs⟩
    · rw [hs] at h
      simp at h

theorem splitLastNl_no_nl {l a b : List Char} (h : splitLastNl l = some (a, b)) :
    '\n' ∉ b := by
  induction l generalizing a b with
  | nil => simp [splitLastNl] at h
  | cons c s ih =>
    simp only [splitLastNl] at h
    rcases hs : splitLastNl s with - | ⟨a0, b0⟩
    · rw [hs] at h
      by_cases hc : c = '\n'
      · simp [hc] at h
        rw [← h.2]
        exact splitLastNl_none hs
      · simp [hc] at h
    · rw [hs] at h
      simp only [Option.some.injEq, Prod.mk.injEq] at h
      rcases h with ⟨-, h2⟩
      subst h2
      exact ih hs

/-- Model of JavaScript s.replace(re, '\n' + marker) where re is a global
regex of shape: optional-whitespace-run followed by the literal marker
(the patterns for the inline [IMAGE: and [TABLE: markers of
sanitizeContent, lines 269 and 270 of parser.service.ts).  A match
consists of the maximal whitespace run at the match start followed by the
marker, since the marker begins with a non-whitespace character; the
marker is passed as head and tail so it is non-empty by construction. -/
def markerStep (mh : Char) (mt : List Char) : List Char → List Char
  | [] => []
  | c :: s =>
    if hp : (mh :: mt).isPrefixOf ((c :: s).dropWhile jsWs) then
      '\n' :: mh :: (mt ++ markerStep mh mt (((c :: s).dropWhile jsWs).drop (mt.length + 1)))
    else c :: markerStep mh mt s
termination_by l => l.length
decreasing_by
  · have h1 : ((c :: s).dropWhile jsWs).length ≤ (c :: s).length :=
      dropWhile_len_le jsWs (c :: s)
    have h2 : ((c :: s).dropWhile jsWs) ≠ [] := by
      intro he
      rw [he] at hp
      simp [List.isPrefixOf] at hp
    simp only [List.length_drop, List.length_cons] at *
    have h3 : 1 ≤ ((c :: s).dropWhile jsWs).length := by
      cases hh : (c :: s).dropWhile jsWs with
      | nil => exact absurd hh h2
      | cons a b => simp
    omega
  · simp only [List.length_cons]
    omega

/-- Model of JavaScript s.replace(re, '\n') where re is the global regex
newline, whitespace-run, newline (line 273 of parser.service.ts).  By
greediness with backtracking, a match starting at a newline extends
through the last newline of the whitespace run that follows it. -/
def collapseNl : List Char → List Char
  | [] => []
  | c :: s =>
    if c = '\n' then
      match hm : splitLastNl (s.takeWhile jsWs) with
      | some (_, b) => '\n' :: collapseNl (b ++ s.drop (s.takeWhile jsWs).length)
      | none => c :: collapseNl s
    else c :: collapseNl s
termination_by l => l.length
decreasing_by
  · have hb := splitLastNl_eq hm
    have h1 : (s.takeWhile jsWs).length ≤ s.length := takeWhile_len_le jsWs s
    have h3 : (s.takeWhile jsWs).length = _ := congrArg List.length hb
    simp only [List.length_append, List.length_cons, List.length_drop] at *
    omega
  · simp only [List.length_cons]
    omega
  · simp only [List.length_cons]
    omega

/-- Model of JavaScript String.prototype.trim, removing leading and
trailing whitespace (the same character class as jsWs). -/
def trimJs (l : List Char) : List Char :=
  ((l.dropWhile jsWs).reverse.dropWhile jsWs).reverse

/-- Whole sanitizer pipeline of sanitizeContent
(parser.service.ts lines 253 to 275) on character lists, applying the
replacements in source order: doctype removal, non-breaking spaces, the
five standard entities, marker newline normalization for [IMAGE: and
[TABLE:, and the final newline collapse. -/
def sanitizeL (content : List Char) : List Char :=
  let c1 := stripFirstCI "<!DOCTYPE html>".toList content
  let c2 := replAll (Char.ofNat 0xA0) [] [' '] c1
  let c3 := replAll '&' "nbsp;".toList [' '] c2
  let c4 := replAll '&' "amp;".toList ['&'] c3
  let c5 := replAll '&' "lt;".toList ['<'] c4
  let c6 := replAll '&' "gt;".toList ['>'] c5
  let c7 := replAll '&' "quot;".toList ['"'] c6
  let c8 := replAll '&' "#39;".toList ['\''] c7
  let c9 := markerStep '[' "IMAGE:".toList c8
  let c10 := markerStep '[' "TABLE:".toList c9
  collapseNl c10

/-- The sanitizeContent method of ParserService on Lean strings. -/
def sanitizeContent (content : String) : String :=
  String.mk (sanitizeL content.toList)

/-- Scanner deciding that a character list holds no two newlines separated
only by whitespace (no match of the regex newline, whitespace-run,
newline).  The state inRun records whether some earlier newline is
followed, so far, only by whitespace characters. -/
def nlOkAux (inRun : Bool) : List Char → Bool
  | [] => true
  | c :: s =>
    if c = '\n' then !inRun && nlOkAux true s
    else nlOkAux (inRun && jsWs c) s

/-- Absence of any run of two or more newlines with only whitespace
between them. -/
def nlOk (l : List Char) : Bool :=
  nlOkAux false l

theorem nlOkAux_mono {s : List Char} (h : nlOkAux true s = true) :
    nlOkAux false s = true := by
  induction s with
  | nil => rfl
  | cons c t ih =>
    by_cases hc : c = '\n'
    · simp [nlOkAux, hc] at h
    · simp only [nlOkAux, if_neg hc, Bool.true_and, Bool.false_and] at h ⊢
      by_cases hw : jsWs c
      · rw [hw] at h
        exact ih h
      · simp only [Bool.not_eq_true] at hw
        rwa [hw] at h

theorem nlOkAux_ws_pfx {w r : List Char} (hw : ∀ c ∈ w, jsWs c = true ∧ c ≠ '\n') :
    nlOkAux true (w ++ r) = nlOkAux true r := by
  induction w with
  | nil => rfl
  | cons c t ih =>
    have hc := hw c (by simp)
    simp only [List.cons_append, nlOkAux, if_neg hc.2, hc.1, Bool.and_self]
    exact ih fun x hx => hw x (by simp [hx])

theorem nlOkAux_ws_nl {w r : List Char} (hw : ∀ c ∈ w, jsWs c = true)
    (hn : '\n' ∈ w) : nlOkAux true (w ++ r) = false := by
  induction w with
  | nil => simp at hn
  | cons c t ih =>
    by_cases hc : c = '\n'
    · simp [nlOkAux, hc]
    · have hcw := hw c (by simp)
      simp only [List.cons_append, nlOkAux, if_neg hc, hcw, Bool.true_and]
      rcases List.mem_cons.mp hn with h | h
      · exact absurd h.symm hc
      · exact ih (fun x hx => hw x (by simp [hx])) h

theorem collapseNl_cons_ne {c : Char} (s : List Char) (hc : c ≠ '\n') :
    collapseNl (c :: s) = c :: collapseNl s := by
  rw [collapseNl]
  simp [hc]

theorem collapseNl_append_ne {w s : List Char} (hw : ∀ c ∈ w, c ≠ '\n') :
    collapseNl (w ++ s) = w ++ collapseNl s := by
  induction w with
  | nil => rfl
  | cons c t ih =>
    rw [List.cons_append, collapseNl_cons_ne _ (hw c (by simp)),
      ih fun x hx => hw x (by simp [hx])]
    rfl

theorem drop_takeWhile_len {α : Type} (p : α → Bool) (l : List α) :
    l.drop (l.takeWhile p).length = l.dropWhile p := by
  induction l with
  | nil => rfl
  | cons c t ih =>
    by_cases h : p c
    · simp [List.takeWhile, List.dropWhile, h, ih]
    · simp [List.takeWhile, List.dropWhile, h]

theorem dropWhile_head_not {α : Type} (p : α → Bool) (l : List α) :
    ∀ x r, l.dropWhile p = x :: r → p x = false := by
  induction l with
  | nil => intro x r h; simp at h
  | cons c t ih =>
    intro x r h
    by_cases hc : p c
    · rw [List.dropWhile_cons_of_pos hc] at h
      exact ih x r h
    · rw [List.dropWhile_cons_of_neg hc] at h
      injection h with h1 h2
      rw [← h1]
      simpa using hc

/-- Key step for the collapse invariant: a list of the shape
whitespace-without-newline followed by the collapse of a list whose head
is not whitespace scans successfully from the inRun state. -/
theorem nlOkAux_true_of_shape {b rest : List Char}
    (hb : ∀ c ∈ b, jsWs c = true ∧ c ≠ '\n')
    (hrest : ∀ x r, rest = x :: r → jsWs x = false)
    (ih : nlOk (collapseNl rest) = true ∨ rest = []) :
    nlOkAux true (b ++ collapseNl rest) = true := by
  rw [nlOkAux_ws_pfx hb]
  cases rest with
  | nil => simp [collapseNl, nlOkAux]
  | cons x r =>
    have hx : jsWs x = false := hrest x r rfl
    have hxn : x ≠ '\n' := by
      intro he
      rw [he] at hx
      simp [jsWs] at hx
    rcases ih with ih | ih
    · rw [collapseNl_cons_ne _ hxn] at ih ⊢
      simp only [nlOkAux, if_neg hxn, hx, Bool.and_false]
      simp only [nlOk, nlOkAux, if_neg hxn, hx, Bool.and_false] at ih
      exact ih
    · simp at ih

/-- Collapse of runs of newlines: the output of the final sanitizer step
holds no two newlines separated only by whitespace. -/
theorem nlOk_collapseNl (s : List Char) : nlOk (collapseNl s) = true := by
  generalize hl : s.length = n
  induction n using Nat.strong_induction_on generalizing s with
  | _ n ih =>
  cases s with
  | nil => simp [collapseNl, nlOk, nlOkAux]
  | cons c t =>
    by_cases hc : c = '\n'
    · subst hc
      rw [collapseNl]
      simp only
      rcases hm : splitLastNl (t.takeWhile jsWs) with - | ⟨a, b⟩
      · have hnonl : '\n' ∉ t.takeWhile jsWs := splitLastNl_none hm
        have hsplit : t = t.takeWhile jsWs ++ t.dropWhile jsWs :=
          (List.takeWhile_append_dropWhile jsWs t).symm
        have hb : ∀ x ∈ t.takeWhile jsWs, jsWs x = true ∧ x ≠ '\n' :=
          fun x hx => ⟨List.mem_takeWhile_imp hx, fun he => hnonl (he ▸ hx)⟩
        show nlOkAux false ('\n' :: collapseNl t) = true
        simp only [nlOkAux, if_pos rfl, Bool.not_false, Bool.true_and]
        conv_lhs => rw [hsplit, collapseNl_append_ne fun x hx => (hb x hx).2]
        refine nlOkAux_true_of_shape (fun x hx => hb x hx) (dropWhile_head_not jsWs t) ?_
        cases hr : t.dropWhile jsWs with
        | nil => exact Or.inr rfl
        | cons x r =>
          left
          have : r.length < (('\n' :: t) : List Char).length := by
            have h1 : (t.dropWhile jsWs).length ≤ t.length := dropWhile_len_le jsWs t
            rw [hr] at h1
            simp only [List.length_cons] at h1 ⊢
            omega
          have hx : jsWs x = false := dropWhile_head_not jsWs t x r hr
          have hxn : x ≠ '\n' := by
            intro he
            rw [he] at hx
            simp [jsWs] at hx
          rw [collapseNl_cons_ne _ hxn]
          have := ih r.length (hl ▸ this) r rfl
          simpa [nlOk, nlOkAux, if_neg hxn, hx] using this
      · have hrun := splitLastNl_eq hm
        have hbn : '\n' ∉ b := splitLastNl_no_nl hm
        have hbw : ∀ x ∈ b, jsWs x = true ∧ x ≠ '\n' := by
          intro x hx
          have hxr : x ∈ t.takeWhile jsWs := by
            rw [hrun]
            simp [hx]
          exact ⟨List.mem_takeWhile_imp hxr, fun he => hbn (he ▸ hx)⟩
        show nlOkAux false
          ('\n' :: collapseNl (b ++ t.drop (t.takeWhile jsWs).length)) = true
        simp only [nlOkAux, if_pos rfl, Bool.not_false, Bool.true_and]
        rw [drop_takeWhile_len]
        rw [collapseNl_append_ne fun x hx => (hbw x hx).2]
        refine nlOkAux_true_of_shape (fun x hx => hbw x hx) (dropWhile_head_not jsWs t) ?_
        cases hr : t.dropWhile jsWs with
        | nil => exact Or.inr rfl
        | cons x r =>
          left
          have : r.length < (('\n' :: t) : List Char).length := by
            have h1 : (t.dropWhile jsWs).length ≤ t.length := dropWhile_len_le jsWs t
            rw [hr] at h1
            simp only [List.length_cons] at h1 ⊢
            omega
          have hx : jsWs x = false := dropWhile_head_not jsWs t x r hr
          have hxn : x ≠ '\n' := by
            intro he
            rw [he] at hx
            simp [jsWs] at hx
          rw [collapseNl_cons_ne _ hxn]
          have := ih r.length (hl ▸ this) r rfl
          simpa [nlOk, nlOkAux, if_neg hxn, hx] using this
    · rw [collapseNl_cons_ne _ hc]
      have ht := ih t.length (by rw [← hl]; simp) t rfl
      simp only [nlOk, nlOkAux, if_neg hc, Bool.false_and] at ht ⊢
      exact ht

/-- Strings already free of whitespace-separated newline pairs are fixed
points of the collapse step. -/
theorem collapseNl_fix {s : List Char} (h : nlOk s = true) : collapseNl s = s := by
  generalize hl : s.length = n
  induction n using Nat.strong_induction_on generalizing s with
  | _ n ih =>
  cases s with
  | nil => simp [collapseNl]
  | cons c t =>
    by_cases hc : c = '\n'
    · subst hc
      have ht : nlOkAux true t = true := by
        simpa [nlOk, nlOkAux] using h
      have hm : splitLastNl (t.takeWhile jsWs) = none := by
        cases hm : splitLastNl (t.takeWhile jsWs) with
        | none => rfl
        | some ab =>
          exfalso
          rcases ab with ⟨a, b⟩
          have hrun := splitLastNl_eq hm
          have hsplit : t = t.takeWhile jsWs ++ t.dropWhile jsWs :=
            (List.takeWhile_append_dropWhile jsWs t).symm
          have hfalse : nlOkAux true t = false := by
            conv_lhs => rw [hsplit]
            refine nlOkAux_ws_nl (fun x hx => List.mem_takeWhile_imp hx) ?_
            rw [hrun]
            simp
          rw [hfalse] at ht
          exact Bool.false_ne_true ht
      rw [collapseNl]
      simp only
      rw [hm]
      have htt : collapseNl t = t :=
        ih t.length (by rw [← hl]; simp) (nlOkAux_mono ht) rfl
      rw [htt]
      simp
    · rw [collapseNl_cons_ne _ hc]
      have ht : nlOk t = true := by
        simpa [nlOk, nlOkAux, if_neg hc] using h
      rw [ih t.length (by rw [← hl]; simp) ht rfl]

/-- Claim C8: for every input string, the output of the sanitizer holds no
run of two or more newlines separated only by whitespace; every such run
is collapsed (the scanner nlOk accepts the output). -/
theorem C8_sanitizer_no_newline_runs (s : String) :
    nlOk (sanitizeContent s).toList = true := by
  show nlOk (sanitizeL s.toList) = true
  unfold sanitizeL
  exact nlOk_collapseNl _

/-- Marker-context scanner: mOk mh mt pnl pnw s holds when every
occurrence of the marker mh :: mt inside s is allowed by its context.
The state bits describe the characters just before the current position:
pnl says the previous character is a newline that itself sits at the
start or after a non-whitespace character; pnw says the previous
character is non-whitespace or the position is the start. -/
def mOk (mh : Char) (mt : List Char) (pnl pnw : Bool) : List Char → Bool
  | [] => true
  | c :: s =>
    (!(mh :: mt).isPrefixOf (c :: s) || pnl) &&
      mOk mh mt (pnw && decide (c = '\n')) (!jsWs c) s

/-- State of the marker-context scanner after reading a word. -/
def stAfter (pnl pnw : Bool) : List Char → Bool × Bool
  | [] => (pnl, pnw)
  | c :: w => stAfter (pnw && decide (c = '\n')) (!jsWs c) w

theorem mOk_append {mh : Char} {mt : List Char} {w r : List Char}
    {pnl pnw : Bool} (h : mOk mh mt pnl pnw (w ++ r) = true) :
    mOk mh mt (stAfter pnl pnw w).1 (stAfter pnl pnw w).2 r = true := by
  induction w generalizing pnl pnw with
  | nil => exact h
  | cons c t ih =>
    rw [List.cons_append, mOk, Bool.and_eq_true] at h
    exact ih h.2

theorem mOk_of_pnl_false {mh : Char} {mt : List Char} {s : List Char}
    {pnl pnw : Bool} (h : mOk mh mt false pnw s = true) :
    mOk mh mt pnl pnw s = true := by
  cases s with
  | nil => rfl
  | cons c t =>
    rw [mOk, Bool.and_eq_true] at h ⊢
    refine ⟨?_, h.2⟩
    have h1 := h.1
    cases hb : (mh :: mt).isPrefixOf (c :: t) with
    | false => simp [hb]
    | true => rw [hb] at h1; simp at h1

/-- Reading a non-whitespace word cannot cross an inserted newline: a
prefix made of non-whitespace characters of the output of markerStep is
already a prefix of its input. -/
theorem prefix_markerStep {mh : Char} {mt : List Char} {s w : List Char}
    (hw : ∀ x ∈ w, jsWs x = false)
    (h : w.isPrefixOf (markerStep mh mt s) = true) :
    w.isPrefixOf s = true := by
  induction s using markerStep.induct mh mt generalizing w with
  | case1 =>
    simpa [markerStep] using h
  | case2 c s hp ih =>
    rw [markerStep, dif_pos hp] at h
    cases w with
    | nil => simp [List.isPrefixOf]
    | cons x t =>
      rw [List.isPrefixOf_cons₂, Bool.and_eq_true, beq_iff_eq] at h
      have hx := hw x (by simp)
      rw [h.1] at hx
      simp [jsWs] at hx
  | case3 c s hp ih =>
    rw [markerStep, dif_neg hp] at h
    cases w with
    | nil => simp [List.isPrefixOf]
    | cons x t =>
      rw [List.isPrefixOf_cons₂, Bool.and_eq_true] at h ⊢
      exact ⟨h.1, ih (fun y hy => hw y (by simp [hy])) h.2⟩

/-- Characters of the output of markerStep come from its input, the
marker, or the inserted newline. -/
theorem mem_markerStep {mh : Char} {mt : List Char} {s : List Char} {x : Char}
    (h : x ∈ markerStep mh mt s) :
    x ∈ s ∨ x = '\n' ∨ x = mh ∨ x ∈ mt := by
  induction s using markerStep.induct mh mt with
  | case1 => simp [markerStep] at h
  | case2 c s hp ih =>
    rw [markerStep, dif_pos hp] at h
    rcases List.mem_cons.mp h with h1 | h1
    · exact Or.inr (Or.inl h1)
    rcases List.mem_cons.mp h1 with h2 | h2
    · exact Or.inr (Or.inr (Or.inl h2))
    rcases List.mem_append.mp h2 with h3 | h3
    · exact Or.inr (Or.inr (Or.inr h3))
    · rcases ih h3 with h4 | h4
      · left
        have hsub : (((c :: s).dropWhile jsWs).drop (mt.length + 1)).Sublist (c :: s) :=
          ((List.drop_sublist _ _).trans (List.dropWhile_sublist _))
        exact hsub.subset h4
      · exact Or.inr h4
  | case3 c s hp ih =>
    rw [markerStep, dif_neg hp] at h
    rcases List.mem_cons.mp h with h1 | h1
    · exact Or.inl (h1 ▸ List.mem_cons_self c s)
    · rcases ih h1 with h2 | h2
      · exact Or.inl (List.mem_cons_of_mem c h2)
      · exact Or.inr h2

/-- Characters of the output of replAll come from its input or the
replacement. -/
theorem mem_replAll {p : Char} {pt rep s : List Char} {x : Char}
    (h : x ∈ replAll p pt rep s) : x ∈ s ∨ x ∈ rep := by
  induction s using replAll.induct p pt rep with
  | case1 => simp [replAll] at h
  | case2 c s hp ih =>
    rw [replAll, if_pos hp] at h
    rcases List.mem_append.mp h with h1 | h1
    · exact Or.inr h1
    · rcases ih h1 with h2 | h2
      · exact Or.inl (List.mem_cons_of_mem c ((List.drop_sublist _ _).subset h2))
      · exact Or.inr h2
  | case3 c s hp ih =>
    rw [replAll, if_neg hp] at h
    rcases List.mem_cons.mp h with h1 | h1
    · exact Or.inl (h1 ▸ List.mem_cons_self c s)
    · rcases ih h1 with h2 | h2
      · exact Or.inl (List.mem_cons_of_mem c h2)
      · exact Or.inr h2

/-- Characters of the output of collapseNl come from its input. -/
theorem mem_collapseNl {s : List Char} {x : Char} (h : x ∈ collapseNl s) :
    x ∈ s := by
  generalize hl : s.length = n
  induction n using Nat.strong_induction_on generalizing s with
  | _ n ih =>
  cases s with
  | nil => simpa [collapseNl] using h
  | cons c t =>
    by_cases hc : c = '\n'
    · subst hc
      rw [collapseNl] at h
      simp only at h
      rcases hm : splitLastNl (t.takeWhile jsWs) with - | ⟨a, b⟩
      · rw [hm] at h
        rcases List.mem_cons.mp h with h1 | h1
        · exact h1 ▸ List.mem_cons_self _ _
        · exact List.mem_cons_of_mem _ (ih t.length (by rw [← hl]; simp) h1 rfl)
      · rw [hm] at h
        rcases List.mem_cons.mp h with h1 | h1
        · exact h1 ▸ List.mem_cons_self _ _
        · have hlt : (b ++ t.drop (t.takeWhile jsWs).length).length < n := by
            have hrun := splitLastNl_eq hm
            have h1 : (t.takeWhile jsWs).length ≤ t.length := takeWhile_len_le jsWs t
            have h3 : (t.takeWhile jsWs).length = _ := congrArg List.length hrun
            rw [← hl]
            simp only [List.length_append, List.length_cons, List.length_drop] at *
            omega
          have hmem := ih _ hlt h1 rfl
          refine List.mem_cons_of_mem _ ?_
          rcases List.mem_append.mp hmem with h2 | h2
          · have hb : x ∈ t.takeWhile jsWs := by
              rw [splitLastNl_eq hm]
              simp [h2]
            exact (List.takeWhile_sublist _).subset hb
          · exact (List.drop_sublist _ _).subset h2
    · rw [collapseNl_cons_ne _ hc] at h
      rcases List.mem_cons.mp h with h1 | h1
      · exact h1 ▸ List.mem_cons_self _ _
      · exact List.mem_cons_of_mem _ (ih t.length (by rw [← hl]; simp) h1 rfl)

/-- Absence of the pattern makes replAll the identity. -/
theorem replAll_fix {p : Char} {pt rep s : List Char}
    (h : hasSub (p :: pt) s = false) : replAll p pt rep s = s := by
  induction s using replAll.induct p pt rep with
  | case1 => simp [replAll]
  | case2 c s hp ih =>
    rw [hasSub] at h
    simp [hp] at h
  | case3 c s hp ih =>
    rw [hasSub] at h
    simp only [Bool.or_eq_false_iff] at h
    rw [replAll, if_neg hp, ih h.2]

/-- Absence of any case-insensitive occurrence makes the doctype step the
identity. -/
theorem stripFirstCI_fix {pat s : List Char}
    (h : ciHasSub pat s = false) : stripFirstCI pat s = s := by
  induction s with
  | nil => rfl
  | cons c t ih =>
    rw [ciHasSub, List.map_cons, hasSub] at h
    simp only [Bool.or_eq_false_iff] at h
    rw [stripFirstCI]
    have hcs : ciStarts pat (c :: t) = false := by
      rw [ciStarts, List.map_cons]
      exact h.1
    rw [hcs]
    simp only [Bool.false_eq_true, if_false]
    rw [ih h.2]

/-- Replacement of a single character is a map over the string. -/
theorem replAll_single {p r : Char} {s : List Char} :
    replAll p [] [r] s = s.map fun c => if c = p then r else c := by
  induction s with
  | nil => simp [replAll]
  | cons c t ih =>
    rw [replAll]
    by_cases hc : c = p
    · have hpre : ([p] : List Char).isPrefixOf (c :: t) = true := by
        simp [List.isPrefixOf, hc]
      rw [if_pos hpre, List.map_cons, if_pos hc]
      simpa using ih
    · have hpre : ([p] : List Char).isPrefixOf (c :: t) = false := by
        simp [List.isPrefixOf]
        intro he
        exact absurd he.symm hc
      rw [hpre]
      simp only [Bool.false_eq_true, if_false]
      rw [List.map_cons, if_neg hc, ih]

theorem stAfter_append {u v : List Char} {pnl pnw : Bool} :
    stAfter pnl pnw (u ++ v) =
      stAfter (stAfter pnl pnw u).1 (stAfter pnl pnw u).2 v := by
  induction u generalizing pnl pnw with
  | nil => rfl
  | cons c t ih =>
    simp only [List.cons_append, stAfter]
    exact ih

theorem stAfter_nonws {u : List Char} {pnl pnw : Bool} (hne : u ≠ [])
    (hu : ∀ x ∈ u, jsWs x = false) : stAfter pnl pnw u = (false, true) := by
  induction u generalizing pnl pnw with
  | nil => exact absurd rfl hne
  | cons c t ih =>
    have hc : jsWs c = false := hu c (by simp)
    have hcn : decide (c = '\n') = false := by
      simp only [decide_eq_false_iff_not]
      intro he
      rw [he] at hc
      simp [jsWs] at hc
    cases t with
    | nil => simp [stAfter, hc, hcn]
    | cons y u2 =>
      rw [stAfter]
      exact ih (by simp) fun x hx => hu x (by simp [hx])

theorem stAfter_ws_false {u : List Char} {pnl : Bool} (hne : u ≠ [])
    (hu : ∀ x ∈ u, jsWs x = true) : (stAfter pnl false u).1 = false := by
  induction u generalizing pnl with
  | nil => exact absurd rfl hne
  | cons c t ih =>
    rw [stAfter, Bool.false_and]
    cases t with
    | nil => simp [stAfter]
    | cons y u2 =>
      have := hu c (by simp)
      rw [this]
      exact ih (by simp) fun x hx => hu x (by simp [hx])

theorem stAfter_ws_pnl {u : List Char} {pnl pnw : Bool}
    (hu : ∀ x ∈ u, jsWs x = true) (h : (stAfter pnl pnw u).1 = true) :
    (u = [] ∧ pnl = true) ∨ (u = ['\n'] ∧ pnw = true) := by
  cases u with
  | nil => exact Or.inl ⟨rfl, h⟩
  | cons c t =>
    have hc : jsWs c = true := hu c (by simp)
    cases t with
    | nil =>
      simp only [stAfter, hc, Bool.not_true] at h
      right
      rw [Bool.and_eq_true] at h
      rcases h with ⟨h1, h2⟩
      simp only [decide_eq_true_eq] at h2
      exact ⟨by rw [h2], h1⟩
    | cons y u2 =>
      exfalso
      rw [stAfter, hc, Bool.not_true] at h
      rw [stAfter_ws_false (by simp) fun x hx => hu x (by simp [hx])] at h
      exact Bool.false_ne_true h

/-- Scanning characters that can never begin the marker nor be
whitespace leaves the scanner in a fixed state. -/
theorem mOk_neutral {mh : Char} {mt u r : List Char} {pnl pnw : Bool}
    (hu : ∀ x ∈ u, jsWs x = false ∧ x ≠ mh) :
    mOk mh mt pnl pnw (u ++ r) =
      mOk mh mt (stAfter pnl pnw u).1 (stAfter pnl pnw u).2 r := by
  induction u generalizing pnl pnw with
  | nil => rfl
  | cons c t ih =>
    have hc := hu c (by simp)
    have hpre : (mh :: mt).isPrefixOf (c :: (t ++ r)) = false := by
      rw [List.isPrefixOf_cons₂]
      have : (mh == c) = false := by
        simp only [beq_eq_false_iff_ne, ne_eq]
        exact fun he => hc.2 he.symm
      rw [this, Bool.false_and]
    rw [List.cons_append, mOk, hpre, stAfter]
    simp only [Bool.not_false, Bool.true_and]
    exact ih fun x hx => hu x (by simp [hx])

theorem collapseNl_cons_nl_none {t : List Char}
    (hm : splitLastNl (t.takeWhile jsWs) = none) :
    collapseNl ('\n' :: t) = '\n' :: collapseNl t := by
  rw [collapseNl]
  simp only
  rcases hm2 : splitLastNl (t.takeWhile jsWs) with - | ⟨a2, b2⟩
  · rfl
  · rw [hm] at hm2
    exact absurd hm2 (by simp)

theorem collapseNl_cons_nl_some {t a b : List Char}
    (hm : splitLastNl (t.takeWhile jsWs) = some (a, b)) :
    collapseNl ('\n' :: t) =
      '\n' :: collapseNl (b ++ t.drop (t.takeWhile jsWs).length) := by
  rw [collapseNl]
  simp only
  rcases hm2 : splitLastNl (t.takeWhile jsWs) with - | ⟨a2, b2⟩
  · rw [hm] at hm2
    exact absurd hm2 (by simp)
  · rw [hm] at hm2
    simp only [Option.some.injEq, Prod.mk.injEq] at hm2
    rw [hm2.2]
    simp

/-- Prefix reflection for the collapse step: a prefix made of
non-whitespace characters of the output of collapseNl is already a prefix
of its input. -/
theorem prefix_collapseNl {s w : List Char}
    (hw : ∀ x ∈ w, jsWs x = false)
    (h : w.isPrefixOf (collapseNl s) = true) : w.isPrefixOf s = true := by
  generalize hl : s.length = n
  induction n using Nat.strong_induction_on generalizing s w with
  | _ n ih =>
  cases s with
  | nil =>
    simpa [collapseNl] using h
  | cons c t =>
    by_cases hc : c = '\n'
    · subst hc
      cases w with
      | nil => simp [List.isPrefixOf]
      | cons x tw =>
        exfalso
        have hx := hw x (by simp)
        rcases hm : splitLastNl (t.takeWhile jsWs) with - | ⟨a, b⟩
        · rw [collapseNl_cons_nl_none hm] at h
          rw [List.isPrefixOf_cons₂, Bool.and_eq_true, beq_iff_eq] at h
          rw [h.1] at hx
          simp [jsWs] at hx
        · rw [collapseNl_cons_nl_some hm] at h
          rw [List.isPrefixOf_cons₂, Bool.and_eq_true, beq_iff_eq] at h
          rw [h.1] at hx
          simp [jsWs] at hx
    · rw [collapseNl_cons_ne _ hc] at h
      cases w with
      | nil => simp [List.isPrefixOf]
      | cons x tw =>
        rw [List.isPrefixOf_cons₂, Bool.and_eq_true] at h ⊢
        exact ⟨h.1, ih t.length (by rw [← hl]; simp)
          (fun y hy => hw y (by simp [hy])) h.2 rfl⟩

theorem jsWs_nl : jsWs '\n' = true := by decide

theorem isPrefixOf_head_ne {x y : Char} {l l2 : List Char} (h : x ≠ y) :
    (x :: l).isPrefixOf (y :: l2) = false := by
  rw [List.isPrefixOf_cons₂]
  have hb : (x == y) = false := by simp [h]
  rw [hb, Bool.false_and]

theorem isPrefixOf_self_append (l r : List Char) :
    l.isPrefixOf (l ++ r) = true :=
  List.isPrefixOf_iff_prefix.mpr (List.prefix_append l r)

theorem mOk_pnl_of_isPrefixOf {mh : Char} {mt w : List Char} {pnl pnw : Bool}
    (hok : mOk mh mt pnl pnw w = true)
    (hpre : (mh :: mt).isPrefixOf w = true) : pnl = true := by
  cases w with
  | nil => simp [List.isPrefixOf] at hpre
  | cons x u =>
    rw [mOk, Bool.and_eq_true] at hok
    have h1 := hok.1
    rw [hpre] at h1
    simpa using h1

/-- Establishment: after the marker normalization step, every occurrence
of the marker sits directly after a newline that follows a non-whitespace
character or the string start. -/
theorem mOk_markerStep {mh : Char} {mt : List Char}
    (hm : ∀ c ∈ mh :: mt, jsWs c = false) (hnm : mh ∉ mt) (s : List Char) :
    ∀ pnl pnw : Bool,
      (pnw = false → (mh :: mt).isPrefixOf (s.dropWhile jsWs) = false) →
      mOk mh mt pnl pnw (markerStep mh mt s) = true := by
  have hmh : jsWs mh = false := hm mh (by simp)
  have hmhn : mh ≠ '\n' := by
    intro he
    rw [he, jsWs_nl] at hmh
    exact Bool.false_ne_true hmh.symm
  induction s using markerStep.induct mh mt with
  | case1 =>
    intro pnl pnw hpre
    simp [markerStep, mOk]
  | case2 c s hp ih =>
    intro pnl pnw hpre
    have hpnw : pnw = true := by
      cases hq : pnw with
      | true => rfl
      | false => rw [hpre hq] at hp; exact absurd hp (by simp)
    rw [markerStep, dif_pos hp, mOk, isPrefixOf_head_ne hmhn]
    simp only [Bool.not_false, Bool.true_and, jsWs_nl, Bool.not_true, decide_True,
      Bool.and_true, hpnw]
    rw [mOk]
    have hself : (mh :: mt).isPrefixOf
        (mh :: (mt ++ markerStep mh mt (((c :: s).dropWhile jsWs).drop (mt.length + 1)))) =
        true := isPrefixOf_self_append (mh :: mt) _
    rw [hself]
    simp only [Bool.not_true, Bool.false_or, Bool.false_and, hmh, Bool.not_false]
    rw [mOk_neutral fun x hx => ⟨hm x (by simp [hx]), fun he => hnm (by rw [← he]; exact hx)⟩]
    have hst : stAfter false true mt = (false, true) := by
      cases ht : mt with
      | nil => rfl
      | cons y u =>
        refine stAfter_nonws (by simp) fun x hx => hm x ?_
        rw [ht]
        simp [hx]
    rw [hst]
    exact ih false true fun h => nomatch h
  | case3 c s hp ih =>
    intro pnl pnw hpre
    rw [markerStep, dif_neg hp, mOk]
    have hcond : ((mh :: mt).isPrefixOf (c :: markerStep mh mt s)) = false := by
      cases hb : (mh :: mt).isPrefixOf (c :: markerStep mh mt s) with
      | false => rfl
      | true =>
        exfalso
        rw [List.isPrefixOf_cons₂, Bool.and_eq_true, beq_iff_eq] at hb
        have hms : mt.isPrefixOf s = true :=
          prefix_markerStep (fun x hx => hm x (by simp [hx])) hb.2
        have hz : (mh :: mt).isPrefixOf (c :: s) = true := by
          rw [List.isPrefixOf_cons₂, Bool.and_eq_true, beq_iff_eq]
          exact ⟨hb.1, hms⟩
        have hd : (c :: s).dropWhile jsWs = c :: s := by
          rw [List.dropWhile_cons, ← hb.1, hmh]
          simp
        rw [hd] at hp
        exact hp hz
    rw [hcond]
    simp only [Bool.not_false, Bool.true_and]
    refine ih _ _ ?_
    intro hq
    have hq2 : jsWs c = true := by simpa using hq
    rw [List.dropWhile_cons_of_pos hq2] at hp
    cases hb : (mh :: mt).isPrefixOf (s.dropWhile jsWs) with
    | false => rfl
    | true => exact absurd hb hp

/-- Fixpoint: a string in which every marker occurrence already sits
directly after a correctly placed newline is unchanged by the marker
normalization step. -/
theorem markerStep_fix {mh : Char} {mt : List Char}
    (hm : ∀ c ∈ mh :: mt, jsWs c = false) (s : List Char) :
    ∀ pnl pnw : Bool, mOk mh mt pnl pnw s = true →
      (pnl = true → (mh :: mt).isPrefixOf s = false) →
      markerStep mh mt s = s := by
  have hmh : jsWs mh = false := hm mh (by simp)
  induction s using markerStep.induct mh mt with
  | case1 =>
    intro pnl pnw hok hpre
    simp [markerStep]
  | case2 c s hp ih =>
    intro pnl pnw hok hpre
    obtain ⟨rest, hrest⟩ := List.isPrefixOf_iff_prefix.mp hp
    have hsplit : (c :: s) = (c :: s).takeWhile jsWs ++ (c :: s).dropWhile jsWs :=
      (List.takeWhile_append_dropWhile jsWs (c :: s)).symm
    have hok2 := @mOk_append mh mt ((c :: s).takeWhile jsWs) ((c :: s).dropWhile jsWs)
        pnl pnw (by rw [← hsplit]; exact hok)
    have hrun : ∀ x ∈ (c :: s).takeWhile jsWs, jsWs x = true :=
      fun x hx => List.mem_takeWhile_imp hx
    have hpnl1 : (stAfter pnl pnw ((c :: s).takeWhile jsWs)).1 = true :=
      mOk_pnl_of_isPrefixOf hok2 hp
    rcases stAfter_ws_pnl hrun hpnl1 with ⟨hre, hpl⟩ | ⟨hre, hpw⟩
    · exfalso
      have hdz : (c :: s).dropWhile jsWs = c :: s := by
        conv_rhs => rw [hsplit]
        rw [hre]
        rfl
      rw [hdz] at hp
      rw [hpre hpl] at hp
      exact absurd hp (by simp)
    · have hz : (c :: s) = '\n' :: (c :: s).dropWhile jsWs := by
        conv_lhs => rw [hsplit, hre]
        rfl
      have hc : c = '\n' := (List.cons.injEq _ _ _ _ ▸ hz).1
      have hs : s = (c :: s).dropWhile jsWs := (List.cons.injEq _ _ _ _ ▸ hz).2
      have hdrop : ((c :: s).dropWhile jsWs).drop (mt.length + 1) = rest := by
        rw [← hrest]
        have hlen : mt.length + 1 = (mh :: mt).length := by simp
        rw [hlen, List.drop_left]
      rw [markerStep, dif_pos hp, hdrop]
      rw [hdrop] at ih
      have hok3 : mOk mh mt false true rest = true := by
        have hz2 : (c :: s) = ('\n' :: mh :: mt) ++ rest := by
          rw [hz, ← hrest]
          rfl
        rw [hz2] at hok
        have h4 := @mOk_append mh mt ('\n' :: mh :: mt) rest pnl pnw hok
        have hstval : stAfter pnl pnw ('\n' :: mh :: mt) = (false, true) := by
          rw [stAfter]
          have hsn : stAfter (pnw && decide ('\n' = '\n')) (!jsWs '\n') (mh :: mt) =
              (false, true) :=
            stAfter_nonws (by simp) fun x hx => hm x hx
          simpa using hsn
        rw [hstval] at h4
        exact h4
      have hfix : markerStep mh mt rest = rest :=
        ih false true hok3 fun h => nomatch h
      rw [hfix, hc, hs, ← hrest]
      rfl
  | case3 c s hp ih =>
    intro pnl pnw hok hpre
    rw [markerStep, dif_neg hp]
    rw [mOk, Bool.and_eq_true] at hok
    have hfix : markerStep mh mt s = s := by
      refine ih _ _ hok.2 ?_
      intro hq
      rw [Bool.and_eq_true, decide_eq_true_eq] at hq
      cases hb : (mh :: mt).isPrefixOf s with
      | false => rfl
      | true =>
        exfalso
        obtain ⟨rest, hrest⟩ := List.isPrefixOf_iff_prefix.mp hb
        have hds : s.dropWhile jsWs = s := by
          rw [← hrest, List.cons_append, List.dropWhile_cons, hmh]
          simp
        have hdz : (c :: s).dropWhile jsWs = s := by
          rw [List.dropWhile_cons_of_pos, hds]
          rw [hq.2, jsWs_nl]
        rw [hdz] at hp
        exact hp hb
    rw [hfix]

theorem stAfter_ws_pnw {a : List Char} {pnl : Bool}
    (ha : ∀ x ∈ a, jsWs x = true) : (stAfter pnl false a).2 = false := by
  induction a generalizing pnl with
  | nil => rfl
  | cons x u ih =>
    rw [stAfter, Bool.false_and]
    have hx := ha x (by simp)
    rw [hx, Bool.not_true]
    exact ih fun y hy => ha y (by simp [hy])

/-- Preservation: normalizing a second, different marker does not disturb
the context property of the first marker. -/
theorem mOk_markerStep_other {m1h m2h : Char} {m1t m2t : List Char}
    (h1 : ∀ c ∈ m1h :: m1t, jsWs c = false)
    (h2 : ∀ c ∈ m2h :: m2t, jsWs c = false)
    (hpre : ∀ r : List Char, (m1h :: m1t).isPrefixOf ((m2h :: m2t) ++ r) = false)
    (hmem : m1h ∉ m2t) (s : List Char) :
    ∀ pnl pnw : Bool, mOk m1h m1t pnl pnw s = true →
      mOk m1h m1t pnl pnw (markerStep m2h m2t s) = true := by
  have hm1h : jsWs m1h = false := h1 m1h (by simp)
  have h1n : m1h ≠ '\n' := by
    intro he
    rw [he, jsWs_nl] at hm1h
    exact Bool.false_ne_true hm1h.symm
  induction s using markerStep.induct m2h m2t with
  | case1 =>
    intro pnl pnw hok
    simpa [markerStep] using hok
  | case2 c s hp ih =>
    intro pnl pnw hok
    obtain ⟨rest2, hrest2⟩ := List.isPrefixOf_iff_prefix.mp hp
    have hdrop2 : ((c :: s).dropWhile jsWs).drop (m2t.length + 1) = rest2 := by
      rw [← hrest2]
      have hlen : m2t.length + 1 = (m2h :: m2t).length := by simp
      rw [hlen, List.drop_left]
    rw [hdrop2] at ih
    rw [markerStep, dif_pos hp, hdrop2]
    rw [mOk, isPrefixOf_head_ne h1n]
    rw [mOk]
    have hc2 : (m1h :: m1t).isPrefixOf
        (m2h :: (m2t ++ markerStep m2h m2t rest2)) = false := hpre _
    rw [hc2]
    have hm2h : jsWs m2h = false := h2 m2h (by simp)
    simp only [Bool.not_false, Bool.true_and, Bool.true_or, jsWs_nl, Bool.not_true,
      decide_True, Bool.and_true, Bool.false_and, hm2h]
    have hneu : ∀ x ∈ m2t, jsWs x = false ∧ x ≠ m1h := by
      intro x hx
      refine ⟨h2 x (by simp [hx]), ?_⟩
      intro he
      exact hmem (by rw [← he]; exact hx)
    rw [mOk_neutral hneu]
    have hst : stAfter false true m2t = (false, true) := by
      cases ht : m2t with
      | nil => rfl
      | cons y u =>
        refine stAfter_nonws (by simp) fun x hx => h2 x ?_
        rw [ht]
        simp [hx]
    rw [hst]
    refine ih false true ?_
    have hsplit : (c :: s) = (c :: s).takeWhile jsWs ++ (c :: s).dropWhile jsWs :=
      (List.takeWhile_append_dropWhile jsWs (c :: s)).symm
    have hok2 := @mOk_append m1h m1t ((c :: s).takeWhile jsWs)
      ((c :: s).dropWhile jsWs) pnl pnw (by rw [← hsplit]; exact hok)
    rw [← hrest2] at hok2
    have hok3 := @mOk_append m1h m1t (m2h :: m2t) rest2 _ _ hok2
    have hst2 : stAfter (stAfter pnl pnw ((c :: s).takeWhile jsWs)).1
        (stAfter pnl pnw ((c :: s).takeWhile jsWs)).2 (m2h :: m2t) = (false, true) :=
      stAfter_nonws (by simp) fun x hx => h2 x hx
    rw [hst2] at hok3
    exact hok3
  | case3 c s hp ih =>
    intro pnl pnw hok
    rw [markerStep, dif_neg hp]
    rw [mOk, Bool.and_eq_true] at hok
    rw [mOk, Bool.and_eq_true]
    refine ⟨?_, ih _ _ hok.2⟩
    cases hb : (m1h :: m1t).isPrefixOf (c :: markerStep m2h m2t s) with
    | false => simp
    | true =>
      rw [List.isPrefixOf_cons₂, Bool.and_eq_true, beq_iff_eq] at hb
      have hms : m1t.isPrefixOf s = true :=
        prefix_markerStep (fun x hx => h1 x (by simp [hx])) hb.2
      have hz : (m1h :: m1t).isPrefixOf (c :: s) = true := by
        rw [List.isPrefixOf_cons₂, Bool.and_eq_true, beq_iff_eq]
        exact ⟨hb.1, hms⟩
      have h3 := hok.1
      rw [hz] at h3
      simp only [Bool.not_true, Bool.false_or] at h3
      simp [h3]

/-- Preservation: the newline collapse step does not disturb the marker
context property. -/
theorem mOk_collapseNl_pres {mh : Char} {mt : List Char}
    (hm : ∀ c ∈ mh :: mt, jsWs c = false) (s : List Char) :
    ∀ pnl pnw : Bool, mOk mh mt pnl pnw s = true →
      mOk mh mt pnl pnw (collapseNl s) = true := by
  have hmh : jsWs mh = false := hm mh (by simp)
  have h1n : mh ≠ '\n' := by
    intro he
    rw [he, jsWs_nl] at hmh
    exact Bool.false_ne_true hmh.symm
  generalize hl : s.length = n
  induction n using Nat.strong_induction_on generalizing s with
  | _ n ih =>
  cases s with
  | nil =>
    intro pnl pnw hok
    simpa [collapseNl] using hok
  | cons c t =>
    intro pnl pnw hok
    rw [mOk, Bool.and_eq_true] at hok
    by_cases hc : c = '\n'
    · subst hc
      rcases hm2 : splitLastNl (t.takeWhile jsWs) with - | ⟨a, b⟩
      · rw [collapseNl_cons_nl_none hm2, mOk, Bool.and_eq_true]
        refine ⟨by rw [isPrefixOf_head_ne h1n]; simp, ?_⟩
        exact ih t.length (by rw [← hl]; simp) t rfl _ _ hok.2
      · rw [collapseNl_cons_nl_some hm2, mOk, Bool.and_eq_true]
        refine ⟨by rw [isPrefixOf_head_ne h1n]; simp, ?_⟩
        have hrun := splitLastNl_eq hm2
        have hlen1 : (t.takeWhile jsWs).length ≤ t.length := takeWhile_len_le jsWs t
        have hlen2 : (t.takeWhile jsWs).length = _ := congrArg List.length hrun
        have hblen : (b ++ t.drop (t.takeWhile jsWs).length).length < n := by
          rw [← hl]
          simp only [List.length_append, List.length_cons, List.length_drop] at *
          omega
        refine ih _ hblen _ rfl _ _ ?_
        have hshape : t = (a ++ ['\n']) ++ (b ++ t.drop (t.takeWhile jsWs).length) := by
          rw [drop_takeWhile_len]
          conv_lhs => rw [← List.takeWhile_append_dropWhile jsWs t]
          rw [hrun]
          simp
        have hok2 := @mOk_append mh mt (a ++ ['\n'])
          (b ++ t.drop (t.takeWhile jsWs).length) _ _ (by rw [← hshape]; exact hok.2)
        have hwa : ∀ x ∈ a, jsWs x = true := by
          intro x hx
          have hx2 : x ∈ t.takeWhile jsWs := by
            rw [hrun]
            simp [hx]
          exact List.mem_takeWhile_imp hx2
        have hstw : (stAfter (pnw && decide ('\n' = '\n')) (!jsWs '\n')
            (a ++ ['\n'])) = (false, false) := by
          rw [stAfter_append]
          have hq : (stAfter (pnw && decide ('\n' = '\n')) (!jsWs '\n') a).2 = false := by
            rw [jsWs_nl, Bool.not_true]
            exact stAfter_ws_pnw hwa
          rw [stAfter, stAfter, hq]
          simp [jsWs_nl]
        rw [hstw] at hok2
        simp only [jsWs_nl, Bool.not_true, decide_True, Bool.and_true]
        exact mOk_of_pnl_false hok2
    · rw [collapseNl_cons_ne _ hc, mOk, Bool.and_eq_true]
      constructor
      · cases hb : (mh :: mt).isPrefixOf (c :: collapseNl t) with
        | false => simp
        | true =>
          rw [List.isPrefixOf_cons₂, Bool.and_eq_true, beq_iff_eq] at hb
          have hms : mt.isPrefixOf t = true :=
            prefix_collapseNl (fun x hx => hm x (by simp [hx])) hb.2
          have hz : (mh :: mt).isPrefixOf (c :: t) = true := by
            rw [List.isPrefixOf_cons₂, Bool.and_eq_true, beq_iff_eq]
            exact ⟨hb.1, hms⟩
          have h3 := hok.1
          rw [hz] at h3
          simp only [Bool.not_true, Bool.false_or] at h3
          simp [h3]
      · exact ih t.length (by rw [← hl]; simp) t rfl _ _ hok.2

/-- Claim C9 counterexample: the input consisting of the doctype
declaration <!DOCTYPE foo> begins with a doctype declaration, yet the
sanitizer returns it unchanged, because the code only removes the exact
literal <!DOCTYPE html>. -/
theorem C9_counterexample :
    sanitizeContent "<!DOCTYPE foo>" = "<!DOCTYPE foo>" := by
  simp +decide [sanitizeContent, sanitizeL, stripFirstCI, replAll, markerStep, collapseNl]

/-- Claim C9 (amended): the doctype step of the sanitizer removes exactly
the first case-insensitive occurrence of the fifteen-character literal
<!DOCTYPE html>, wherever it occurs; in particular a leading occurrence
(in any character case) is stripped, and a string with no such occurrence
is returned unchanged by this step. -/
theorem C9_doctype_strip_amended (s : List Char) :
    (ciStarts "<!DOCTYPE html>".toList s = true →
      stripFirstCI "<!DOCTYPE html>".toList s = s.drop 15) ∧
    (ciHasSub "<!DOCTYPE html>".toList s = false →
      stripFirstCI "<!DOCTYPE html>".toList s = s) := by
  constructor
  · intro h
    cases s with
    | nil =>
      exfalso
      revert h
      decide
    | cons c t =>
      rw [stripFirstCI, if_pos h]
      have hlen : ("<!DOCTYPE html>".toList).length = 15 := by decide
      rw [hlen]
  · intro h
    exact stripFirstCI_fix h

theorem C9_doctype_strip_amended_witness :
    ciStarts "<!DOCTYPE html>".toList "<!doctype HTML>xyz".toList = true ∧
    stripFirstCI "<!DOCTYPE html>".toList "<!doctype HTML>xyz".toList =
      "<!doctype HTML>xyz".toList.drop 15 ∧
    ciHasSub "<!DOCTYPE html>".toList "plain".toList = false ∧
    stripFirstCI "<!DOCTYPE html>".toList "plain".toList = "plain".toList :=
  ⟨by decide, (C9_doctype_strip_amended _).1 (by decide), by decide,
    (C9_doctype_strip_amended _).2 (by decide)⟩

/-- Claim C2 counterexample: the sanitizer is not idempotent, because
entity decoding can produce a new entity occurrence; on the input
ampersand-amp-semicolon-amp-semicolon one pass yields the literal
ampersand entity and a second pass decodes it again. -/
theorem C2_counterexample :
    sanitizeContent (sanitizeContent "&amp;amp;") ≠ sanitizeContent "&amp;amp;" := by
  have h1 : sanitizeContent "&amp;amp;" = "&amp;" := by
    simp +decide [sanitizeContent, sanitizeL, stripFirstCI, replAll, markerStep, collapseNl]
  have h2 : sanitizeContent "&amp;" = "&" := by
    simp +decide [sanitizeContent, sanitizeL, stripFirstCI, replAll, markerStep, collapseNl]
  rw [h1, h2]
  decide

/-- Non-breaking spaces never survive the sanitizer: the second step maps
them all to spaces and no later step introduces one. -/
theorem nbsp_not_mem_sanitizeL (l : List Char) :
    Char.ofNat 0xA0 ∉ sanitizeL l := by
  intro hmem
  have h10 := mem_collapseNl hmem
  rcases mem_markerStep h10 with h9 | h9 | h9 | h9
  rotate_left
  · revert h9; decide
  · revert h9; decide
  · revert h9; decide
  rcases mem_markerStep h9 with h8 | h8 | h8 | h8
  rotate_left
  · revert h8; decide
  · revert h8; decide
  · revert h8; decide
  rcases mem_replAll h8 with h7 | h7
  swap
  · revert h7; decide
  rcases mem_replAll h7 with h6 | h6
  swap
  · revert h6; decide
  rcases mem_replAll h6 with h5 | h5
  swap
  · revert h5; decide
  rcases mem_replAll h5 with h4 | h4
  swap
  · revert h4; decide
  rcases mem_replAll h4 with h3 | h3
  swap
  · revert h3; decide
  rcases mem_replAll h3 with h2 | h2
  swap
  · revert h2; decide
  rw [replAll_single] at h2
  rcases List.mem_map.mp h2 with ⟨aa, -, hfa⟩
  by_cases haa : aa = Char.ofNat 0xA0
  · rw [if_pos haa] at hfa
    revert hfa
    decide
  · rw [if_neg haa] at hfa
    exact haa hfa

/-- Core of the amended idempotence claim, on character lists: one
sanitizer pass is a fixpoint of a second pass provided the first output
holds no case-insensitive doctype literal and none of the six entity
literals. -/
theorem sanitizeL_idem (l : List Char)
    (hdoc : ciHasSub "<!DOCTYPE html>".toList (sanitizeL l) = false)
    (h1 : hasSub ('&' :: "nbsp;".toList) (sanitizeL l) = false)
    (h2 : hasSub ('&' :: "amp;".toList) (sanitizeL l) = false)
    (h3 : hasSub ('&' :: "lt;".toList) (sanitizeL l) = false)
    (h4 : hasSub ('&' :: "gt;".toList) (sanitizeL l) = false)
    (h5 : hasSub ('&' :: "quot;".toList) (sanitizeL l) = false)
    (h6 : hasSub ('&' :: "#39;".toList) (sanitizeL l) = false) :
    sanitizeL (sanitizeL l) = sanitizeL l := by
  have hd : stripFirstCI "<!DOCTYPE html>".toList (sanitizeL l) = sanitizeL l :=
    stripFirstCI_fix hdoc
  have hnb : replAll (Char.ofNat 0xA0) [] [' '] (sanitizeL l) = sanitizeL l := by
    rw [replAll_single]
    have hcong : ∀ c ∈ sanitizeL l, (if c = Char.ofNat 0xA0 then ' ' else c) = c := by
      intro c hc
      rw [if_neg]
      intro he
      exact nbsp_not_mem_sanitizeL l (he ▸ hc)
    rw [List.map_congr_left hcong]
    simp
  have he1 : replAll '&' "nbsp;".toList [' '] (sanitizeL l) = sanitizeL l := replAll_fix h1
  have he2 : replAll '&' "amp;".toList ['&'] (sanitizeL l) = sanitizeL l := replAll_fix h2
  have he3 : replAll '&' "lt;".toList ['<'] (sanitizeL l) = sanitizeL l := replAll_fix h3
  have he4 : replAll '&' "gt;".toList ['>'] (sanitizeL l) = sanitizeL l := replAll_fix h4
  have he5 : replAll '&' "quot;".toList ['"'] (sanitizeL l) = sanitizeL l := replAll_fix h5
  have he6 : replAll '&' "#39;".toList ['\''] (sanitizeL l) = sanitizeL l := replAll_fix h6
  have hm1chars : ∀ c ∈ '[' :: "IMAGE:".toList, jsWs c = false := by decide
  have hm2chars : ∀ c ∈ '[' :: "TABLE:".toList, jsWs c = false := by decide
  have hnm1 : '[' ∉ "IMAGE:".toList := by decide
  have hnm2 : '[' ∉ "TABLE:".toList := by decide
  have hincompat : ∀ r : List Char,
      ('[' :: "IMAGE:".toList).isPrefixOf (('[' :: "TABLE:".toList) ++ r) = false := by
    intro r
    rw [List.cons_append, List.isPrefixOf_cons₂]
    have hne : ("IMAGE:".toList).isPrefixOf ("TABLE:".toList ++ r) = false :=
      isPrefixOf_head_ne (by decide)
    rw [hne, Bool.and_false]
  have hok1 : mOk '[' "IMAGE:".toList false true (sanitizeL l) = true :=
    mOk_collapseNl_pres hm1chars _ false true
      (mOk_markerStep_other hm1chars hm2chars hincompat hnm2 _ false true
        (mOk_markerStep hm1chars hnm1 _ false true fun h => nomatch h))
  have hok2 : mOk '[' "TABLE:".toList false true (sanitizeL l) = true :=
    mOk_collapseNl_pres hm2chars _ false true
      (mOk_markerStep hm2chars hnm2 _ false true fun h => nomatch h)
  have hm1fix : markerStep '[' "IMAGE:".toList (sanitizeL l) = sanitizeL l :=
    markerStep_fix hm1chars _ false true hok1 fun h => nomatch h
  have hm2fix : markerStep '[' "TABLE:".toList (sanitizeL l) = sanitizeL l :=
    markerStep_fix hm2chars _ false true hok2 fun h => nomatch h
  have hcol : collapseNl (sanitizeL l) = sanitizeL l :=
    collapseNl_fix (nlOk_collapseNl _)
  show collapseNl (markerStep '[' "TABLE:".toList (markerStep '[' "IMAGE:".toList
    (replAll '&' "#39;".toList ['\''] (replAll '&' "quot;".toList ['"']
    (replAll '&' "gt;".toList ['>'] (replAll '&' "lt;".toList ['<']
    (replAll '&' "amp;".toList ['&'] (replAll '&' "nbsp;".toList [' ']
    (replAll (Char.ofNat 0xA0) [] [' ']
    (stripFirstCI "<!DOCTYPE html>".toList (sanitizeL l))))))))))) = sanitizeL l
  rw [hd, hnb, he1, he2, he3, he4, he5, he6, hm1fix, hm2fix, hcol]

/-- Claim C2 (amended): the sanitizer is idempotent on every input whose
sanitized output holds no case-insensitive occurrence of the literal
<!DOCTYPE html> and no occurrence of any of the six entity literals it
decodes; without these conditions a second pass can remove a second
doctype occurrence or decode an entity formed by the first pass, as the
counterexample shows. -/
theorem C2_sanitizer_idempotent_amended (x : String)
    (hdoc : ciHasSub "<!DOCTYPE html>".toList (sanitizeContent x).toList = false)
    (h1 : hasSub ('&' :: "nbsp;".toList) (sanitizeContent x).toList = false)
    (h2 : hasSub ('&' :: "amp;".toList) (sanitizeContent x).toList = false)
    (h3 : hasSub ('&' :: "lt;".toList) (sanitizeContent x).toList = false)
    (h4 : hasSub ('&' :: "gt;".toList) (sanitizeContent x).toList = false)
    (h5 : hasSub ('&' :: "quot;".toList) (sanitizeContent x).toList = false)
    (h6 : hasSub ('&' :: "#39;".toList) (sanitizeContent x).toList = false) :
    sanitizeContent (sanitizeContent x) = sanitizeContent x :=
  congrArg String.mk (sanitizeL_idem x.toList hdoc h1 h2 h3 h4 h5 h6)

theorem C2_sanitizer_idempotent_amended_witness :
    ciHasSub "<!DOCTYPE html>".toList (sanitizeContent "a&amp;b\n\n[IMAGE:f]").toList = false ∧
    sanitizeContent (sanitizeContent "a&amp;b\n\n[IMAGE:f]") =
      sanitizeContent "a&amp;b\n\n[IMAGE:f]" := by
  constructor
  · simp +decide [sanitizeContent, sanitizeL, stripFirstCI, replAll, markerStep,
      collapseNl, ciHasSub, hasSub, ciStarts, lowerC]
  · refine C2_sanitizer_idempotent_amended _ ?_ ?_ ?_ ?_ ?_ ?_ ?_ <;>
      simp +decide [sanitizeContent, sanitizeL, stripFirstCI, replAll, markerStep,
        collapseNl, ciHasSub, hasSub, ciStarts, lowerC]

/-- Model of the node-html-parser DOM: an element holds its raw tag name,
its attributes and its ordered children; text and comment nodes hold
their raw text; root is the container element returned by the library
parse function, whose tagName is null.  Attributes are modeled as parsed
pairs and serialized canonically, standing in for the rawAttrs string the
library keeps. -/
inductive HNode where
  | elem (tag : String) (attrs : List (String × String)) (children : List HNode)
  | text (s : String)
  | comment (s : String)
  | root (children : List HNode)

namespace HNode

/-- The childNodes property: the ordered children of an element or of
the parse root; text and comment nodes have none. -/
def childNodes : HNode → List HNode
  | elem _ _ cs => cs
  | root cs => cs
  | _ => []

/-- The nodeType property: 1 for elements and the parse root, 3 for text
nodes, 8 for comments. -/
def nodeType : HNode → Nat
  | text _ => 3
  | comment _ => 8
  | _ => 1

/-- The tagName property: the raw tag name upper-cased for elements;
null (none) for text nodes, comments and the parse root. -/
def tagName : HNode → Option String
  | elem t _ _ => some (upperStr t)
  | _ => none

/-- The instanceof HTMLElement test used by the chunker: elements and
parse roots are HTMLElement objects, text and comment nodes are not. -/
def isHTMLElement : HNode → Bool
  | elem _ _ _ => true
  | root _ => true
  | _ => false

end HNode

/-- Void tags of node-html-parser, rendered without a closing tag. -/
def voidTags : List String :=
  ["area", "base", "br", "col", "embed", "hr", "img", "input", "link",
   "meta", "param", "source", "track", "wbr"]

/-- Canonical rendering of the attribute list, one space before each
key="value" pair, as node-html-parser renders its raw attribute text. -/
def attrsText (attrs : List (String × String)) : String :=
  attrs.foldl (fun acc kv => acc ++ " " ++ kv.1 ++ "=\"" ++ kv.2 ++ "\"") ""

mutual

/-- Serialization of a node (the outerHTML property used by the chunker
for size measurement and copying): elements render as tag, attributes and
children, void tags without closing tag, text renders raw, comments in
comment brackets, and the parse root renders its children. -/
def outerHTML : HNode → String
  | .text s => s
  | .comment s => "<!--" ++ s ++ "-->"
  | .elem t a cs =>
    if voidTags.contains (lowerStr t) then "<" ++ t ++ attrsText a ++ ">"
    else "<" ++ t ++ attrsText a ++ ">" ++ outerList cs ++ "</" ++ t ++ ">"
  | .root cs => outerList cs
termination_by structural n => n

/-- Concatenated serialization of a list of nodes (innerHTML). -/
def outerList : List HNode → String
  | [] => ""
  | n :: ns => outerHTML n ++ outerList ns
termination_by structural l => l

end

mutual

/-- Structural equality test on nodes. -/
def HNode.beq : HNode → HNode → Bool
  | .elem t1 a1 c1, .elem t2 a2 c2 => t1 == t2 && a1 == a2 && HNode.beqList c1 c2
  | .text s1, .text s2 => s1 == s2
  | .comment s1, .comment s2 => s1 == s2
  | .root c1, .root c2 => HNode.beqList c1 c2
  | _, _ => false
termination_by structural a => a

/-- Structural equality test on node lists. -/
def HNode.beqList : List HNode → List HNode → Bool
  | [], [] => true
  | x :: xs, y :: ys => HNode.beq x y && HNode.beqList xs ys
  | _, _ => false
termination_by structural l => l

end

mutual

theorem HNode.beq_iff : (a b : HNode) → (HNode.beq a b = true ↔ a = b)
  | .elem t1 a1 c1, .elem t2 a2 c2 => by
    simp [HNode.beq, HNode.beqList_iff c1 c2, Bool.and_eq_true, and_assoc]
  | .elem _ _ _, .text _ => by simp [HNode.beq]
  | .elem _ _ _, .comment _ => by simp [HNode.beq]
  | .elem _ _ _, .root _ => by simp [HNode.beq]
  | .text _, .elem _ _ _ => by simp [HNode.beq]
  | .text s1, .text s2 => by simp [HNode.beq]
  | .text _, .comment _ => by simp [HNode.beq]
  | .text _, .root _ => by simp [HNode.beq]
  | .comment _, .elem _ _ _ => by simp [HNode.beq]
  | .comment _, .text _ => by simp [HNode.beq]
  | .comment s1, .comment s2 => by simp [HNode.beq]
  | .comment _, .root _ => by simp [HNode.beq]
  | .root _, .elem _ _ _ => by simp [HNode.beq]
  | .root _, .text _ => by simp [HNode.beq]
  | .root _, .comment _ => by simp [HNode.beq]
  | .root c1, .root c2 => by simp [HNode.beq, HNode.beqList_iff c1 c2]
termination_by structural a => a

theorem HNode.beqList_iff : (l1 l2 : List HNode) → (HNode.beqList l1 l2 = true ↔ l1 = l2)
  | [], [] => by simp [HNode.beqList]
  | [], _ :: _ => by simp [HNode.beqList]
  | _ :: _, [] => by simp [HNode.beqList]
  | x :: xs, y :: ys => by
    simp [HNode.beqList, HNode.beq_iff x y, HNode.beqList_iff xs ys, Bool.and_eq_true]
termination_by structural l => l

end

instance : DecidableEq HNode := fun a b => decidable_of_iff _ (HNode.beq_iff a b)

/-- The maximum chunk size constant of parser.service.ts. -/
def MAX_CHUNK_SIZE : Nat := 3000

/-- The synthetic seed container: parse of the div markup yields a parse
root holding one empty div element. -/
def seedDiv : HNode := HNode.elem "div" [] []

/-- The appendNodeToChunk closure of chunkHTML (parser.service.ts lines
76 to 91).  The state holds the completed chunks, the childNodes of the
current accumulator chunk, and the running size counter.  The library
call parse(node.outerHTML), used both for the standalone oversized chunk
and for the copy appended to the accumulator, is modeled as a parse root
holding a structural copy of the node (the serialization is assumed
parse-stable, as the source relies on); appendChild pushes that root onto
the accumulator chunk. -/
def appendNodeToChunk (chunkSize : Nat)
    (st : List HNode × List HNode × Nat) (node : HNode) :
    List HNode × List HNode × Nat :=
  let nodeHTML := (outerHTML node).length
  let st2 :=
    if chunkSize < st.2.2 + nodeHTML ∧ 0 < st.2.2 then
      (st.1 ++ [HNode.root st.2.1], ([seedDiv] : List HNode), 0)
    else st
  if chunkSize < nodeHTML then
    (st2.1 ++ [HNode.root [node]], st2.2.1, st2.2.2)
  else
    (st2.1, st2.2.1 ++ [HNode.root [node]], st2.2.2 + nodeHTML)

/-- The chunkHTML method (parser.service.ts lines 71 to 109): traverse
the top-level children, feed every HTMLElement child to the accumulator,
and push the final accumulator chunk when it has any child node (it
always has the seed div). -/
def chunkHTML (element : HNode) (chunkSize : Nat) : List HNode :=
  let st := element.childNodes.foldl
    (fun st child =>
      if child.isHTMLElement then appendNodeToChunk chunkSize st child else st)
    ([], ([seedDiv] : List HNode), 0)
  if 0 < (HNode.root st.2.1).childNodes.length then st.1 ++ [HNode.root st.2.1]
  else st.1

/-- Whether a node is a parse root. -/
def isRoot : HNode → Bool
  | .root _ => true
  | _ => false

/-- Content nodes carried by the child list of a chunk: each appended
parse root contributes its children (the copied top-level nodes), the
seed div container is not content, and any other direct child stands for
itself. -/
def unchunkNodes : List HNode → List HNode
  | [] => []
  | HNode.root cs :: rest => cs ++ unchunkNodes rest
  | y :: rest => if y = seedDiv then unchunkNodes rest else y :: unchunkNodes rest

/-- Content nodes of a chunk. -/
def unchunk : HNode → List HNode
  | .root cs => unchunkNodes cs
  | _ => []

/-- Serialized size of a node, the measure used by the chunker. -/
def nodeSize (n : HNode) : Nat := (outerHTML n).length

/-- Total serialized size of the content nodes of a chunk: for an
accumulator chunk this is exactly the running size counter at the time
it was flushed. -/
def contentSize (c : HNode) : Nat := ((unchunk c).map nodeSize).sum

/-- Content nodes of a whole chunker state: the content of the finished
chunks followed by the content of the current accumulator chunk. -/
def unSt (st : List HNode × List HNode × Nat) : List HNode :=
  (st.1.map unchunk).flatten ++ unchunkNodes st.2.1

theorem unchunkNodes_append (l1 l2 : List HNode) :
    unchunkNodes (l1 ++ l2) = unchunkNodes l1 ++ unchunkNodes l2 := by
  induction l1 with
  | nil => rfl
  | cons x rest ih =>
    cases x with
    | root cs => simp only [List.cons_append, unchunkNodes, List.append_eq, ih, List.append_assoc]
    | elem t a c =>
      rw [List.cons_append]
      by_cases hx : HNode.elem t a c = seedDiv
      · simp only [unchunkNodes, if_pos hx, ih]
      · simp only [unchunkNodes, if_neg hx, ih, List.cons_append]
    | text s0 =>
      have hx : HNode.text s0 ≠ seedDiv := by simp [seedDiv]
      rw [List.cons_append]
      simp only [unchunkNodes, if_neg hx, ih, List.cons_append]
    | comment s0 =>
      have hx : HNode.comment s0 ≠ seedDiv := by simp [seedDiv]
      rw [List.cons_append]
      simp only [unchunkNodes, if_neg hx, ih, List.cons_append]

theorem unchunkNodes_seedDiv : unchunkNodes [seedDiv] = [] := by decide

theorem unchunkNodes_rootSingle (n : HNode) :
    unchunkNodes [HNode.root [n]] = [n] := by
  simp [unchunkNodes]

theorem unchunkNodes_single {n : HNode} (h1 : isRoot n = false) (h2 : n ≠ seedDiv) :
    unchunkNodes [n] = [n] := by
  cases n with
  | root cs => simp [isRoot] at h1
  | elem t a c => simp [unchunkNodes, if_neg h2]
  | text s0 => simp [unchunkNodes, if_neg h2]
  | comment s0 => simp [unchunkNodes, if_neg h2]

theorem nodeSize_elem_pos (t : String) (a : List (String × String))
    (c : List HNode) : 0 < nodeSize (HNode.elem t a c) := by
  rw [nodeSize, outerHTML]
  have h1 : "<".length = 1 := by decide
  split <;>
  · simp only [String.length_append]
    omega

theorem nodeSize_seedDiv : nodeSize seedDiv = 11 := by decide

theorem nodeSize_pos_of_elem {n : HNode} (hel : n.isHTMLElement = true)
    (hnr : isRoot n = false) : 0 < nodeSize n := by
  cases n with
  | elem t a c => exact nodeSize_elem_pos t a c
  | root cs => simp [isRoot] at hnr
  | text s0 => simp [HNode.isHTMLElement] at hel
  | comment s0 => simp [HNode.isHTMLElement] at hel

theorem appendNodeToChunk_ov_flush {cs : Nat} {st : List HNode × List HNode × Nat}
    {child : HNode} (hov : cs < (outerHTML child).length)
    (hflush : cs < st.2.2 + (outerHTML child).length ∧ 0 < st.2.2) :
    appendNodeToChunk cs st child =
      (st.1 ++ [HNode.root st.2.1] ++ [HNode.root [child]], [seedDiv], 0) := by
  unfold appendNodeToChunk
  simp only [if_pos hflush, if_pos hov]

theorem appendNodeToChunk_ov_noflush {cs : Nat} {st : List HNode × List HNode × Nat}
    {child : HNode} (hov : cs < (outerHTML child).length)
    (hflush : ¬(cs < st.2.2 + (outerHTML child).length ∧ 0 < st.2.2)) :
    appendNodeToChunk cs st child =
      (st.1 ++ [HNode.root [child]], st.2.1, st.2.2) := by
  unfold appendNodeToChunk
  simp only [if_neg hflush, if_pos hov]

theorem appendNodeToChunk_app_flush {cs : Nat} {st : List HNode × List HNode × Nat}
    {child : HNode} (hov : ¬cs < (outerHTML child).length)
    (hflush : cs < st.2.2 + (outerHTML child).length ∧ 0 < st.2.2) :
    appendNodeToChunk cs st child =
      (st.1 ++ [HNode.root st.2.1], [seedDiv] ++ [HNode.root [child]],
        0 + (outerHTML child).length) := by
  unfold appendNodeToChunk
  simp only [if_pos hflush, if_neg hov]

theorem appendNodeToChunk_app_noflush {cs : Nat} {st : List HNode × List HNode × Nat}
    {child : HNode} (hov : ¬cs < (outerHTML child).length)
    (hflush : ¬(cs < st.2.2 + (outerHTML child).length ∧ 0 < st.2.2)) :
    appendNodeToChunk cs st child =
      (st.1, st.2.1 ++ [HNode.root [child]], st.2.2 + (outerHTML child).length) := by
  unfold appendNodeToChunk
  simp only [if_neg hflush, if_neg hov]

mutual

/-- Whether a node occurs in a tree, as the tree itself or anywhere in a
subtree. -/
def occursIn (x : HNode) : HNode → Bool
  | .elem t a cs => HNode.beq x (.elem t a cs) || occursInList x cs
  | .root cs => HNode.beq x (.root cs) || occursInList x cs
  | .text s0 => HNode.beq x (.text s0)
  | .comment s0 => HNode.beq x (.comment s0)
termination_by structural n => n

/-- Whether a node occurs in any tree of a list. -/
def occursInList (x : HNode) : List HNode → Bool
  | [] => false
  | n :: ns => occursIn x n || occursInList x ns
termination_by structural l => l

end

/-- Size and goodness invariant of the chunker state: the running
counter never exceeds the chunk size, it equals the total content size
of the accumulator chunk, the accumulator child list is never empty, and
every finished chunk either carries content of total size within the
bound or is a standalone chunk holding one oversized node. -/
def chunkInvC5 (cs : Nat) (st : List HNode × List HNode × Nat) : Prop :=
  st.2.2 ≤ cs ∧ ((unchunkNodes st.2.1).map nodeSize).sum = st.2.2 ∧ st.2.1 ≠ [] ∧
  ∀ c ∈ st.1, contentSize c ≤ cs ∨ ∃ n, c = HNode.root [n] ∧ cs < nodeSize n

theorem appendNodeToChunk_invC5 {cs : Nat} {st : List HNode × List HNode × Nat}
    {child : HNode} (hinv : chunkInvC5 cs st) :
    chunkInvC5 cs (appendNodeToChunk cs st child) := by
  obtain ⟨hb, hsum, hne, hgood⟩ := hinv
  have hflushedGood : contentSize (HNode.root st.2.1) ≤ cs := by
    rw [contentSize, unchunk, hsum]
    exact hb
  by_cases hov : cs < (outerHTML child).length
  · by_cases hflush : cs < st.2.2 + (outerHTML child).length ∧ 0 < st.2.2
    · rw [appendNodeToChunk_ov_flush hov hflush]
      refine ⟨by simp, by simp [unchunkNodes_seedDiv], by simp, ?_⟩
      intro c hc
      simp only [List.append_assoc, List.mem_append, List.mem_singleton] at hc
      rcases hc with hc | hc | hc
      · exact hgood c hc
      · exact Or.inl (hc ▸ hflushedGood)
      · exact Or.inr ⟨child, hc, hov⟩
    · rw [appendNodeToChunk_ov_noflush hov hflush]
      refine ⟨hb, hsum, hne, ?_⟩
      intro c hc
      rcases List.mem_append.mp hc with hc | hc
      · exact hgood c hc
      · rw [List.mem_singleton] at hc
        exact Or.inr ⟨child, hc, hov⟩
  · by_cases hflush : cs < st.2.2 + (outerHTML child).length ∧ 0 < st.2.2
    · rw [appendNodeToChunk_app_flush hov hflush]
      refine ⟨by simpa using Nat.le_of_not_lt hov, ?_, by simp, ?_⟩
      · rw [unchunkNodes_append, unchunkNodes_seedDiv, unchunkNodes_rootSingle]
        simp [nodeSize]
      · intro c hc
        rcases List.mem_append.mp hc with hc | hc
        · exact hgood c hc
        · rw [List.mem_singleton] at hc
          exact Or.inl (hc ▸ hflushedGood)
    · rw [appendNodeToChunk_app_noflush hov hflush]
      refine ⟨?_, ?_, by simp [hne], hgood⟩
      · rcases Nat.eq_zero_or_pos st.2.2 with h0 | h0
        · rw [h0, Nat.zero_add]
          exact Nat.le_of_not_lt hov
        · rcases not_and_or.mp hflush with h1 | h1
          · exact Nat.le_of_not_lt h1
          · exact absurd h0 h1
      · rw [unchunkNodes_append, unchunkNodes_rootSingle, List.map_append,
          List.sum_append, hsum]
        simp [nodeSize]

theorem foldl_invC5 (cs : Nat) (children : List HNode) :
    ∀ st : List HNode × List HNode × Nat, chunkInvC5 cs st →
      chunkInvC5 cs (children.foldl
        (fun st child => if child.isHTMLElement then appendNodeToChunk cs st child
          else st) st) := by
  induction children with
  | nil => intro st h; exact h
  | cons child rest ih =>
    intro st h
    rw [List.foldl_cons]
    by_cases hel : child.isHTMLElement
    · rw [if_pos hel]
      exact ih _ (appendNodeToChunk_invC5 h)
    · rw [if_neg hel]
      exact ih _ h

theorem chunkInvC5_init (cs : Nat) :
    chunkInvC5 cs ([], ([seedDiv] : List HNode), 0) := by
  refine ⟨Nat.zero_le cs, ?_, by simp, by simp⟩
  rw [unchunkNodes_seedDiv]
  rfl

/-- Claim C5 part two, stated for the whole chunker: every produced
chunk either carries content whose accumulated size is at most the
bound, or is a standalone chunk holding a single node whose own
serialized size exceeds the bound. -/
theorem chunkHTML_size_bound (doc : HNode) (cs : Nat) :
    ∀ c ∈ chunkHTML doc cs,
      contentSize c ≤ cs ∨ ∃ n, c = HNode.root [n] ∧ cs < nodeSize n := by
  intro c hc
  have hinv := foldl_invC5 cs doc.childNodes _ (chunkInvC5_init cs)
  obtain ⟨hb, hsum, hne, hgood⟩ := hinv
  rw [chunkHTML] at hc
  by_cases hcond : 0 < (HNode.root (doc.childNodes.foldl
      (fun st child => if child.isHTMLElement = true then appendNodeToChunk cs st child
        else st) ([], [seedDiv], 0)).2.1).childNodes.length
  · rw [if_pos hcond] at hc
    rcases List.mem_append.mp hc with hc | hc
    · exact hgood c hc
    · rw [List.mem_singleton] at hc
      subst hc
      left
      rw [contentSize, unchunk, hsum]
      exact hb
  · rw [if_neg hcond] at hc
    exact hgood c hc

theorem appendNodeToChunk_unSt {cs : Nat} {st : List HNode × List HNode × Nat}
    {child : HNode} (h11 : 11 ≤ cs)
    (hel : child.isHTMLElement = true) (hnr : isRoot child = false)
    (hshape : 0 < st.2.2 ∨ st.2.1 = [seedDiv]) (hne : st.2.1 ≠ []) :
    unSt (appendNodeToChunk cs st child) = unSt st ++ [child] ∧
    (0 < (appendNodeToChunk cs st child).2.2 ∨
      (appendNodeToChunk cs st child).2.1 = [seedDiv]) ∧
    (appendNodeToChunk cs st child).2.1 ≠ [] := by
  have hpos : 0 < nodeSize child := nodeSize_pos_of_elem hel hnr
  by_cases hov : cs < (outerHTML child).length
  · have hchild : child ≠ seedDiv := by
      intro he
      rw [he] at hov
      have h := nodeSize_seedDiv
      rw [nodeSize] at h
      omega
    have hsingle : unchunkNodes [child] = [child] := unchunkNodes_single hnr hchild
    by_cases hflush : cs < st.2.2 + (outerHTML child).length ∧ 0 < st.2.2
    · rw [appendNodeToChunk_ov_flush hov hflush]
      refine ⟨?_, by simp, by simp⟩
      rw [unSt, unSt]
      simp only [List.map_append, List.flatten_append, List.map_cons, List.map_nil,
        List.flatten_cons, List.flatten_nil, unchunkNodes_seedDiv, List.append_nil]
      rw [unchunk, unchunk, hsingle]
    · have hsz : st.2.2 = 0 := by
        rcases not_and_or.mp hflush with h1 | h1
        · exfalso
          exact h1 (by omega)
        · omega
      have hcur : st.2.1 = [seedDiv] := by
        rcases hshape with h | h
        · omega
        · exact h
      rw [appendNodeToChunk_ov_noflush hov hflush]
      refine ⟨?_, Or.inr hcur, by simpa using hne⟩
      rw [unSt, unSt]
      simp only [List.map_append, List.flatten_append, List.map_cons, List.map_nil,
        List.flatten_cons, List.flatten_nil, List.append_nil]
      rw [hcur, unchunkNodes_seedDiv, unchunk, hsingle]
      simp
  · by_cases hflush : cs < st.2.2 + (outerHTML child).length ∧ 0 < st.2.2
    · rw [appendNodeToChunk_app_flush hov hflush]
      refine ⟨?_, ?_, by simp⟩
      · rw [unSt, unSt]
        simp only [List.map_append, List.flatten_append, List.map_cons, List.map_nil,
          List.flatten_cons, List.flatten_nil, List.append_nil]
        rw [unchunk, unchunkNodes_append, unchunkNodes_seedDiv, unchunkNodes_rootSingle]
        simp [List.append_assoc]
      · left
        simp only
        rw [nodeSize] at hpos
        omega
    · rw [appendNodeToChunk_app_noflush hov hflush]
      refine ⟨?_, ?_, by simp [hne]⟩
      · rw [unSt, unSt]
        rw [unchunkNodes_append, unchunkNodes_rootSingle]
        simp [List.append_assoc]
      · left
        simp only
        rw [nodeSize] at hpos
        omega

theorem foldl_unSt {cs : Nat} (h11 : 11 ≤ cs) (children : List HNode)
    (hwf : ∀ c ∈ children, isRoot c = false) :
    ∀ st : List HNode × List HNode × Nat,
      (0 < st.2.2 ∨ st.2.1 = [seedDiv]) → st.2.1 ≠ [] →
      unSt (children.foldl
        (fun st child => if child.isHTMLElement then appendNodeToChunk cs st child
          else st) st) = unSt st ++ children.filter HNode.isHTMLElement ∧
      (0 < (children.foldl
        (fun st child => if child.isHTMLElement then appendNodeToChunk cs st child
          else st) st).2.2 ∨
        (children.foldl
        (fun st child => if child.isHTMLElement then appendNodeToChunk cs st child
          else st) st).2.1 = [seedDiv]) ∧
      (children.foldl
        (fun st child => if child.isHTMLElement then appendNodeToChunk cs st child
          else st) st).2.1 ≠ [] := by
  induction children with
  | nil =>
    intro st h1 h2
    exact ⟨by simp, h1, h2⟩
  | cons child rest ih =>
    intro st h1 h2
    rw [List.foldl_cons, List.filter_cons]
    by_cases hel : child.isHTMLElement
    · rw [if_pos hel, if_pos hel]
      have happ := appendNodeToChunk_unSt h11 hel (hwf child (by simp)) h1 h2
      have hrest := ih (fun c hc => hwf c (by simp [hc])) _ happ.2.1 happ.2.2
      refine ⟨?_, hrest.2.1, hrest.2.2⟩
      rw [hrest.1, happ.1]
      simp
    · rw [if_neg hel, if_neg (by simpa using hel)]
      exact ih (fun c hc => hwf c (by simp [hc])) st h1 h2

/-- Claim C1 counterexample: a top-level text child is dropped by
chunking; in the document holding the text node hello followed by one
paragraph, no produced chunk holds the text node anywhere. -/
theorem C1_counterexample :
    (chunkHTML (HNode.root [HNode.text "hello",
        HNode.elem "p" [] [HNode.text "x"]]) 3000).all
      (fun c => !occursIn (HNode.text "hello") c) = true := by decide

/-- Claim C1 (amended): concatenating the content node sequences of the
chunks, in chunk order, reproduces exactly the top-level children that
are HTMLElement instances, in their original order, with none reordered,
duplicated or dropped; top-level text and comment children are dropped
by chunking.  The chunk size must be at least the size of the seed
container markup, and the parsed document has no parse-root children
(parsed documents never do). -/
theorem C1_chunk_concat_amended (doc : HNode) (cs : Nat) (h11 : 11 ≤ cs)
    (hwf : ∀ c ∈ doc.childNodes, isRoot c = false) :
    ((chunkHTML doc cs).map unchunk).flatten =
      doc.childNodes.filter HNode.isHTMLElement := by
  have hfold := foldl_unSt h11 doc.childNodes hwf ([], [seedDiv], 0)
    (Or.inr rfl) (by simp)
  rw [chunkHTML]
  by_cases hcond : 0 < (HNode.root (doc.childNodes.foldl
      (fun st child => if child.isHTMLElement = true then appendNodeToChunk cs st child
        else st) ([], [seedDiv], 0)).2.1).childNodes.length
  · rw [if_pos hcond]
    have h1 := hfold.1
    rw [unSt, unSt] at h1
    simp only [List.map_nil, List.flatten_nil, unchunkNodes_seedDiv,
      List.append_nil, List.nil_append] at h1
    rw [List.map_append, List.flatten_append]
    simp only [List.map_cons, List.map_nil, List.flatten_cons, List.flatten_nil,
      List.append_nil, unchunk]
    exact h1
  · exfalso
    have h3 := hfold.2.2
    apply hcond
    cases hl : (doc.childNodes.foldl
      (fun st child => if child.isHTMLElement = true then appendNodeToChunk cs st child
        else st) ([], [seedDiv], 0)).2.1 with
    | nil => exact absurd hl h3
    | cons x u => simp [HNode.childNodes]

theorem C1_chunk_concat_amended_witness :
    ((chunkHTML (HNode.root [HNode.text "t",
        HNode.elem "p" [] [HNode.text "x"]]) 3000).map unchunk).flatten =
      [HNode.elem "p" [] [HNode.text "x"]] := by
  have h := C1_chunk_concat_amended
    (HNode.root [HNode.text "t", HNode.elem "p" [] [HNode.text "x"]]) 3000
    (by decide) (by decide)
  rw [h]
  decide

/-- Claim C5: five paragraphs of thirty characters with a bound of one
hundred produce at least two chunks, and in general every chunk respects
the accumulator bound unless it is the standalone chunk of a single node
whose own serialized size exceeds the bound. -/
theorem C5_chunker_bound :
    2 ≤ (chunkHTML (HNode.root [
      HNode.elem "p" [] [HNode.text "abcdefghijklmnopqrstuvw"],
      HNode.elem "p" [] [HNode.text "abcdefghijklmnopqrstuvw"],
      HNode.elem "p" [] [HNode.text "abcdefghijklmnopqrstuvw"],
      HNode.elem "p" [] [HNode.text "abcdefghijklmnopqrstuvw"],
      HNode.elem "p" [] [HNode.text "abcdefghijklmnopqrstuvw"]]) 100).length ∧
    ∀ (doc : HNode) (cs : Nat), ∀ c ∈ chunkHTML doc cs,
      contentSize c ≤ cs ∨ ∃ n, c = HNode.root [n] ∧ cs < nodeSize n :=
  ⟨by decide, fun doc cs => chunkHTML_size_bound doc cs⟩

theorem C5_chunker_bound_witness :
    (HNode.root [seedDiv, HNode.root [HNode.elem "p" [] [HNode.text "x"]]]) ∈
      chunkHTML (HNode.root [HNode.elem "p" [] [HNode.text "x"]]) 3000 ∧
    (contentSize (HNode.root [seedDiv,
        HNode.root [HNode.elem "p" [] [HNode.text "x"]]]) ≤ 3000 ∨
      ∃ n, HNode.root [seedDiv, HNode.root [HNode.elem "p" [] [HNode.text "x"]]] =
          HNode.root [n] ∧ 3000 < nodeSize n) :=
  ⟨by decide, C5_chunker_bound.2 (HNode.root [HNode.elem "p" [] [HNode.text "x"]]) 3000
    (HNode.root [seedDiv, HNode.root [HNode.elem "p" [] [HNode.text "x"]]]) (by decide)⟩

theorem foldl_skip {cs : Nat} (l : List HNode)
    (h : ∀ c ∈ l, c.isHTMLElement = false) :
    ∀ st : List HNode × List HNode × Nat, l.foldl
      (fun st child => if child.isHTMLElement then appendNodeToChunk cs st child
        else st) st = st := by
  induction l with
  | nil => intro st; rfl
  | cons child rest ih =>
    intro st
    rw [List.foldl_cons, if_neg (by simp [h child (by simp)])]
    exact ih (fun c hc => h c (by simp [hc])) st

/-- The chunker on a document with no HTMLElement top-level children
returns exactly one chunk, the synthetic seed container (one child, the
empty div). -/
theorem chunkHTML_no_elems (doc : HNode) (cs : Nat)
    (h : ∀ c ∈ doc.childNodes, c.isHTMLElement = false) :
    chunkHTML doc cs = [HNode.root [seedDiv]] := by
  rw [chunkHTML]
  rw [foldl_skip doc.childNodes h ([], [seedDiv], 0)]
  decide

/-- File contents stored by the service: text files (tables as CSV and
the final result) or binary buffers (fetched images, byte lists). -/
inductive FileData where
  | textData (s : String)
  | binData (b : List Nat)
deriving DecidableEq

/-- The per-session storage area, a mapping from file names to file
contents; writeFileSync creates the file or overwrites it. -/
def Store : Type := String → Option FileData

/-- A freshly created session folder (createFolderForResults) holds no
files. -/
def emptyStore : Store := fun _ => none

/-- The saveToFile method (parser.service.ts lines 190 to 203): an
unconditional write of the content under the given file name.  The
isBinary flag only selects the encoding and has no effect on the stored
mapping, so it is not modeled. -/
def saveToFile (filename : String) (content : FileData) (σ : Store) : Store :=
  fun n => if n = filename then some content else σ n

theorem saveToFile_idem (filename : String) (content : FileData) (σ : Store) :
    saveToFile filename content (saveToFile filename content σ) =
      saveToFile filename content σ := by
  funext n
  by_cases h : n = filename <;> simp [saveToFile, h]

/-- External collaborators of the DOM walker, passed as functions:
calculateHash (the SHA-256 hex digest of crypto), the network image
fetch returning the image bytes, and the URL resolution performed by the
URL constructor on a src attribute and the page URL. -/
structure WalkEnv where
  hash : FileData → String
  fetchImage : String → List Nat
  resolveUrl : String → String → String

/-- The getAttribute lookup of node-html-parser: attribute keys are
matched lower-cased. -/
def getAttribute (n : HNode) (key : String) : Option String :=
  match n with
  | .elem _ attrs _ => (attrs.find? fun kv => lowerStr kv.1 = key).map fun kv => kv.2
  | _ => none

/-- The extractImageUrl method (lines 242 to 246): resolve the src
attribute against the page URL.  A missing src attribute is outside the
modeled scope and resolves the empty string. -/
def extractImageUrl (env : WalkEnv) (node : HNode) (originalUrl : String) : String :=
  env.resolveUrl ((getAttribute node "src").getD "") originalUrl

mutual

/-- Raw text of a subtree, as the text property of node-html-parser
concatenates it (the entity decoding that the library applies on access
is not modeled; the claims in scope use entity-free cell text). -/
def rawTextOf : HNode → String
  | .text s0 => s0
  | .comment _ => ""
  | .elem _ _ cs => rawTextList cs
  | .root cs => rawTextList cs
termination_by structural n => n

/-- Concatenated raw text of a node list. -/
def rawTextList : List HNode → String
  | [] => ""
  | n :: ns => rawTextOf n ++ rawTextList ns
termination_by structural l => l

end

mutual

/-- Proper descendants of a node in document (pre-)order. -/
def descendants : HNode → List HNode
  | .elem _ _ cs => descList cs
  | .root cs => descList cs
  | .text _ => []
  | .comment _ => []
termination_by structural n => n

/-- Nodes of a forest in document order, each followed by its own
descendants. -/
def descList : List HNode → List HNode
  | [] => []
  | n :: ns => n :: (descendants n ++ descList ns)
termination_by structural l => l

end

/-- The querySelectorAll calls used by convertTableToCSV, restricted to
the tag-name selectors the code uses: all proper descendants whose tag
matches one of the given lower-case names, in document order. -/
def selectAll (sel : List String) (n : HNode) : List HNode :=
  (descendants n).filter fun d =>
    match d with
    | .elem t _ _ => sel.contains (lowerStr t)
    | _ => false

/-- The convertTableToCSV method (lines 221 to 234): for every tr
descendant, join the trimmed cell texts (th or td descendants of the
row, newlines replaced by spaces) with commas, one row per line. -/
def convertTableToCSV (tableNode : HNode) : String :=
  (selectAll ["tr"] tableNode).foldl
    (fun csvContent row =>
      let cells := selectAll ["th", "td"] row
      let rowContent := String.intercalate ","
        (cells.map fun cell =>
          String.mk ((trimJs (rawTextOf cell).toList).map
            fun ch => if ch = '\n' then ' ' else ch))
      csvContent ++ rowContent ++ "\n") ""

mutual

/-- The traverseNode method (lines 140 to 172), threading the session
store through the artifact writes.  The checks follow the source order:
a TABLE element stores its CSV rendering under a content-hash name and
emits the table marker; an IMG element fetches its resolved source,
stores the bytes under a content-hash name and emits the image marker; a
text node (nodeType 3) emits its trimmed raw text and a newline; any
other element recurses into its children unless it is SCRIPT or STYLE;
comments have no children to recurse into and contribute nothing. -/
def traverseNode (env : WalkEnv) (originalUrl : String) :
    HNode → Store → String × Store
  | .text s0, σ => (String.mk (trimJs s0.toList) ++ "\n", σ)
  | .comment _, σ => ("", σ)
  | .root cs, σ => traverseList env originalUrl cs σ
  | .elem t a cs, σ =>
    if upperStr t = "TABLE" then
      let csvContent := convertTableToCSV (.elem t a cs)
      let hash := env.hash (.textData csvContent)
      let filename := "table_" ++ hash ++ ".txt"
      ("[TABLE:" ++ filename ++ "]\n", saveToFile filename (.textData csvContent) σ)
    else if upperStr t = "IMG" then
      let imageUrl := extractImageUrl env (.elem t a cs) originalUrl
      let imageContent := env.fetchImage imageUrl
      let hash := env.hash (.binData imageContent)
      let filename := "image_" ++ hash ++ ".jpg"
      ("[IMAGE:" ++ filename ++ "]\n", saveToFile filename (.binData imageContent) σ)
    else if upperStr t = "SCRIPT" ∨ upperStr t = "STYLE" then ("", σ)
    else traverseList env originalUrl cs σ
termination_by structural n => n

/-- Sequential traversal of sibling nodes, concatenating their text and
threading the store left to right. -/
def traverseList (env : WalkEnv) (originalUrl : String) :
    List HNode → Store → String × Store
  | [], σ => ("", σ)
  | n :: ns, σ =>
    let r1 := traverseNode env originalUrl n σ
    let r2 := traverseList env originalUrl ns r1.2
    (r1.1 ++ r2.1, r2.2)
termination_by structural l => l

end

/-- The extractContentWithTablesAndImages method (lines 118 to 131):
traverse each child of the chunk in order. -/
def extractContentWithTablesAndImages (env : WalkEnv) (parsedHtml : HNode)
    (originalUrl : String) (σ : Store) : String × Store :=
  traverseList env originalUrl parsedHtml.childNodes σ

/-- Concatenation of emitted pieces. -/
def joinPieces (l : List String) : String :=
  l.foldr (fun a b => a ++ b) ""

theorem joinPieces_append (l1 l2 : List String) :
    joinPieces (l1 ++ l2) = joinPieces l1 ++ joinPieces l2 := by
  induction l1 with
  | nil => simp [joinPieces]
  | cons a t ih =>
    simp only [joinPieces, List.foldr_cons, List.cons_append] at ih ⊢
    rw [ih, String.append_assoc]

mutual

/-- Specification-side description of the walker output, following the
specification text: each node contributes its piece, and the pieces
appear in strictly depth-first document order of the subtree, with
script and style subtrees contributing nothing. -/
def walkPieces (env : WalkEnv) (originalUrl : String) : HNode → List String
  | .text s0 => [String.mk (trimJs s0.toList) ++ "\n"]
  | .comment _ => []
  | .root cs => walkPiecesList env originalUrl cs
  | .elem t a cs =>
    if upperStr t = "TABLE" then
      ["[TABLE:" ++ ("table_" ++
        env.hash (.textData (convertTableToCSV (.elem t a cs))) ++ ".txt") ++ "]\n"]
    else if upperStr t = "IMG" then
      ["[IMAGE:" ++ ("image_" ++
        env.hash (.binData (env.fetchImage
          (extractImageUrl env (.elem t a cs) originalUrl))) ++ ".jpg") ++ "]\n"]
    else if upperStr t = "SCRIPT" ∨ upperStr t = "STYLE" then []
    else walkPiecesList env originalUrl cs
termination_by structural n => n

/-- Pieces of a forest in document order. -/
def walkPiecesList (env : WalkEnv) (originalUrl : String) : List HNode → List String
  | [] => []
  | n :: ns => walkPieces env originalUrl n ++ walkPiecesList env originalUrl ns
termination_by structural l => l

end

mutual

/-- Refinement: the text produced by the store-threading walker equals
the concatenation, in depth-first document order, of the per-node
pieces; in particular it does not depend on the store. -/
theorem traverseNode_fst (env : WalkEnv) (url : String) :
    ∀ (n : HNode) (σ : Store),
      (traverseNode env url n σ).1 = joinPieces (walkPieces env url n)
  | .text s0, σ => by simp [traverseNode, walkPieces, joinPieces]
  | .comment s0, σ => by simp [traverseNode, walkPieces, joinPieces]
  | .root cs, σ => by
    rw [show traverseNode env url (.root cs) σ = traverseList env url cs σ from rfl]
    rw [show walkPieces env url (.root cs) = walkPiecesList env url cs from rfl]
    exact traverseList_fst env url cs σ
  | .elem t a cs, σ => by
    by_cases h1 : upperStr t = "TABLE"
    · simp [traverseNode, walkPieces, joinPieces, h1]
    · by_cases h2 : upperStr t = "IMG"
      · simp [traverseNode, walkPieces, joinPieces, h1, h2]
      · by_cases h3 : upperStr t = "SCRIPT" ∨ upperStr t = "STYLE"
        · simp [traverseNode, walkPieces, joinPieces, h1, h2, h3]
        · have he1 : traverseNode env url (.elem t a cs) σ =
              traverseList env url cs σ := by
            simp [traverseNode, h1, h2, h3]
          have he2 : walkPieces env url (.elem t a cs) =
              walkPiecesList env url cs := by
            simp [walkPieces, h1, h2, h3]
          rw [he1, he2]
          exact traverseList_fst env url cs σ
termination_by structural n => n

/-- Refinement for forests. -/
theorem traverseList_fst (env : WalkEnv) (url : String) :
    ∀ (ns : List HNode) (σ : Store),
      (traverseList env url ns σ).1 = joinPieces (walkPiecesList env url ns)
  | [], σ => by simp [traverseList, walkPiecesList, joinPieces]
  | n :: ns, σ => by
    rw [show (traverseList env url (n :: ns) σ).1 =
        (traverseNode env url n σ).1 ++
          (traverseList env url ns (traverseNode env url n σ).2).1 from rfl]
    rw [show walkPiecesList env url (n :: ns) =
        walkPieces env url n ++ walkPiecesList env url ns from rfl]
    rw [joinPieces_append, traverseNode_fst env url n σ,
      traverseList_fst env url ns (traverseNode env url n σ).2]
termination_by structural ns => ns

end


def c3Doc : HNode := .root [
  .elem "p" [] [.text "Hello"],
  .elem "img" [("src", "/a.png")] [],
  .elem "table" [] [
    .elem "tr" [] [.elem "td" [] [.text "a"], .elem "td" [] [.text "b"]],
    .elem "tr" [] [.elem "td" [] [.text "c"], .elem "td" [] [.text "d"]]]]

/-- C3: For the document with one paragraph containing Hello, one image
with src /a.png, and one 2-by-2 table, in that order, the walker output
is exactly: the text line Hello, the image marker, then the table marker,
each followed by a newline and with the hashes computed from the fetched
image bytes and the CSV rendering a,b / c,d; and in general, for every
node, the walker emits content in strictly depth-first document order of
the subtree: its text output is the concatenation of the per-node pieces
in that order (walkPieces), independently of the store. -/
theorem C3_walker_document_order (env : WalkEnv) (url : String) (σ : Store) :
    (extractContentWithTablesAndImages env c3Doc url σ).1 =
      "Hello\n" ++
        ("[IMAGE:" ++
            ("image_" ++
              env.hash (.binData (env.fetchImage (env.resolveUrl "/a.png" url))) ++
                ".jpg") ++ "]\n" ++
          ("[TABLE:" ++
            ("table_" ++ env.hash (.textData "a,b\nc,d\n") ++ ".txt") ++ "]\n")) ∧
    (∀ (n : HNode) (τ : Store),
      (traverseNode env url n τ).1 = joinPieces (walkPieces env url n)) := by
  constructor
  · simp [extractContentWithTablesAndImages, c3Doc, HNode.childNodes, traverseList,
      traverseNode, convertTableToCSV, selectAll, descendants, descList, rawTextOf,
      rawTextList, trimJs, extractImageUrl, getAttribute, lowerStr, lowerC, upperStr,
      upperC, jsWs, saveToFile, String.intercalate, String.intercalate.go]
  · exact fun n τ => traverseNode_fst env url n τ

/-- C4: A script or style element contributes nothing to the walker's
extracted text and causes no artifact store write, regardless of its
descendants: traverseNode returns the empty string and the store
unchanged, without recursing into the children. -/
theorem C4_script_style_skipped (env : WalkEnv) (url : String) (σ : Store)
    (t : String) (a : List (String × String)) (cs : List HNode)
    (h : upperStr t = "SCRIPT" ∨ upperStr t = "STYLE") :
    traverseNode env url (.elem t a cs) σ = ("", σ) := by
  have h1 : ¬ upperStr t = "TABLE" := by
    rcases h with h | h <;> rw [h] <;> decide
  have h2 : ¬ upperStr t = "IMG" := by
    rcases h with h | h <;> rw [h] <;> decide
  simp [traverseNode, h1, h2, h]

/-- Witness for C4: a script element containing an image and a table
yields no text and leaves the empty store empty. -/
theorem C4_script_style_skipped_witness :
    (upperStr "script" = "SCRIPT" ∨ upperStr "script" = "STYLE") ∧
      traverseNode ⟨fun _ => "h", fun _ => [], fun s0 _ => s0⟩ "u"
        (.elem "script" []
          [.elem "img" [("src", "/a.png")] [],
           .elem "table" [] [.elem "tr" [] [.elem "td" [] [.text "x"]]]])
        emptyStore = ("", emptyStore) :=
  ⟨Or.inl (by decide),
    C4_script_style_skipped ⟨fun _ => "h", fun _ => [], fun s0 _ => s0⟩ "u"
      emptyStore "script" []
      [.elem "img" [("src", "/a.png")] [],
       .elem "table" [] [.elem "tr" [] [.elem "td" [] [.text "x"]]]]
      (Or.inl (by decide))⟩

/-- C7: Content-addressing: two table elements with identical CSV byte
content, or two image elements whose fetched bytes are identical, get
the identical storage filename (kind prefix, content hash, fixed
extension), and the second write of that identical content is a no-op on
the store, not an error: processing the second artifact right after the
first emits its marker and leaves the store exactly as the first write
left it; plain double writes of the same name and content also change
nothing. -/
theorem C7_content_addressing (env : WalkEnv) (url : String) (σ : Store) :
    (∀ (n1 n2 : HNode), HNode.tagName n1 = some "TABLE" →
        HNode.tagName n2 = some "TABLE" →
        convertTableToCSV n1 = convertTableToCSV n2 →
        traverseNode env url n2 (traverseNode env url n1 σ).2 =
          ((traverseNode env url n1 σ).1, (traverseNode env url n1 σ).2)) ∧
    (∀ (n1 n2 : HNode), HNode.tagName n1 = some "IMG" →
        HNode.tagName n2 = some "IMG" →
        env.fetchImage (extractImageUrl env n1 url) =
          env.fetchImage (extractImageUrl env n2 url) →
        traverseNode env url n2 (traverseNode env url n1 σ).2 =
          ((traverseNode env url n1 σ).1, (traverseNode env url n1 σ).2)) ∧
    (∀ (f : String) (c : FileData) (τ : Store),
        saveToFile f c (saveToFile f c τ) = saveToFile f c τ) := by
  refine ⟨?_, ?_, fun f c τ => saveToFile_idem f c τ⟩
  · intro n1 n2 ht1 ht2 hcsv
    cases n1 with
    | elem t1 a1 c1 =>
      cases n2 with
      | elem t2 a2 c2 =>
        simp only [HNode.tagName, Option.some.injEq] at ht1 ht2
        simp [traverseNode, ht1, ht2, hcsv, saveToFile_idem]
      | text s0 => simp [HNode.tagName] at ht2
      | comment s0 => simp [HNode.tagName] at ht2
      | root cs0 => simp [HNode.tagName] at ht2
    | text s0 => simp [HNode.tagName] at ht1
    | comment s0 => simp [HNode.tagName] at ht1
    | root cs0 => simp [HNode.tagName] at ht1
  · intro n1 n2 ht1 ht2 hbytes
    cases n1 with
    | elem t1 a1 c1 =>
      cases n2 with
      | elem t2 a2 c2 =>
        simp only [HNode.tagName, Option.some.injEq] at ht1 ht2
        have h1 : ¬ upperStr t1 = "TABLE" := by rw [ht1]; decide
        have h2 : ¬ upperStr t2 = "TABLE" := by rw [ht2]; decide
        simp [traverseNode, h1, h2, ht1, ht2, hbytes, saveToFile_idem]
      | text s0 => simp [HNode.tagName] at ht2
      | comment s0 => simp [HNode.tagName] at ht2
      | root cs0 => simp [HNode.tagName] at ht2
    | text s0 => simp [HNode.tagName] at ht1
    | comment s0 => simp [HNode.tagName] at ht1
    | root cs0 => simp [HNode.tagName] at ht1

/-- Witness for C7: two distinct table elements with the same CSV cell
content, processed in sequence from the empty store: the second emits
the first's marker text and leaves the store unchanged. -/
theorem C7_content_addressing_witness :
    HNode.tagName (HNode.elem "table" []
        [HNode.elem "tr" [] [HNode.elem "td" [] [HNode.text "a"]]]) = some "TABLE" ∧
    HNode.tagName (HNode.elem "TaBle" [("id", "x")]
        [HNode.elem "tr" [] [HNode.elem "th" [] [HNode.text "a"]]]) = some "TABLE" ∧
    convertTableToCSV (HNode.elem "table" []
        [HNode.elem "tr" [] [HNode.elem "td" [] [HNode.text "a"]]]) =
      convertTableToCSV (HNode.elem "TaBle" [("id", "x")]
        [HNode.elem "tr" [] [HNode.elem "th" [] [HNode.text "a"]]]) ∧
    traverseNode ⟨fun _ => "h", fun _ => [], fun s0 _ => s0⟩ "u"
        (HNode.elem "TaBle" [("id", "x")]
          [HNode.elem "tr" [] [HNode.elem "th" [] [HNode.text "a"]]])
        (traverseNode ⟨fun _ => "h", fun _ => [], fun s0 _ => s0⟩ "u"
          (HNode.elem "table" []
            [HNode.elem "tr" [] [HNode.elem "td" [] [HNode.text "a"]]]) emptyStore).2 =
      ((traverseNode ⟨fun _ => "h", fun _ => [], fun s0 _ => s0⟩ "u"
          (HNode.elem "table" []
            [HNode.elem "tr" [] [HNode.elem "td" [] [HNode.text "a"]]]) emptyStore).1,
        (traverseNode ⟨fun _ => "h", fun _ => [], fun s0 _ => s0⟩ "u"
          (HNode.elem "table" []
            [HNode.elem "tr" [] [HNode.elem "td" [] [HNode.text "a"]]]) emptyStore).2) :=
  ⟨by decide, by decide, by decide,
    (C7_content_addressing ⟨fun _ => "h", fun _ => [], fun s0 _ => s0⟩ "u"
        emptyStore).1
      (HNode.elem "table" [] [HNode.elem "tr" [] [HNode.elem "td" [] [HNode.text "a"]]])
      (HNode.elem "TaBle" [("id", "x")]
        [HNode.elem "tr" [] [HNode.elem "th" [] [HNode.text "a"]]])
      (by decide) (by decide) (by decide)⟩

theorem sanitizeContent_empty : sanitizeContent "" = "" := by
  simp +decide [sanitizeContent, sanitizeL, stripFirstCI, replAll, markerStep, collapseNl]

theorem result_ne_table (x y : String) : ("table_" ++ x) ++ y ≠ "result.txt" := by
  intro hcontra
  have hd := congrArg String.data hcontra
  simp only [String.data_append] at hd
  have h1 := congrArg List.head? hd
  simp at h1

theorem result_ne_image (x y : String) : ("image_" ++ x) ++ y ≠ "result.txt" := by
  intro hcontra
  have hd := congrArg String.data hcontra
  simp only [String.data_append] at hd
  have h1 := congrArg List.head? hd
  simp at h1

mutual

/-- The walker stores artifacts only under table-prefixed and
image-prefixed hash names, so the result file name is never written. -/
theorem traverseNode_result (env : WalkEnv) (url : String) :
    ∀ (n : HNode) (σ : Store),
      (traverseNode env url n σ).2 "result.txt" = σ "result.txt"
  | .text s0, σ => rfl
  | .comment s0, σ => rfl
  | .root cs, σ => traverseList_result env url cs σ
  | .elem t a cs, σ => by
    by_cases h1 : upperStr t = "TABLE"
    · simp only [traverseNode, if_pos h1]
      rw [show ∀ f c τ, saveToFile f c τ "result.txt" =
          if "result.txt" = f then some c else τ "result.txt" from fun f c τ => rfl]
      rw [if_neg (fun hh => result_ne_table _ _ hh.symm)]
    · by_cases h2 : upperStr t = "IMG"
      · simp only [traverseNode, if_neg h1, if_pos h2]
        rw [show ∀ f c τ, saveToFile f c τ "result.txt" =
            if "result.txt" = f then some c else τ "result.txt" from fun f c τ => rfl]
        rw [if_neg (fun hh => result_ne_image _ _ hh.symm)]
      · by_cases h3 : upperStr t = "SCRIPT" ∨ upperStr t = "STYLE"
        · simp only [traverseNode, if_neg h1, if_neg h2, if_pos h3]
        · simp only [traverseNode, if_neg h1, if_neg h2, if_neg h3]
          exact traverseList_result env url cs σ
termination_by structural n => n

/-- Forest version of traverseNode_result. -/
theorem traverseList_result (env : WalkEnv) (url : String) :
    ∀ (ns : List HNode) (σ : Store),
      (traverseList env url ns σ).2 "result.txt" = σ "result.txt"
  | [], σ => rfl
  | n :: ns, σ => by
    rw [show (traverseList env url (n :: ns) σ).2 =
        (traverseList env url ns (traverseNode env url n σ).2).2 from rfl]
    rw [traverseList_result env url ns (traverseNode env url n σ).2]
    exact traverseNode_result env url n σ
termination_by structural ns => ns

end

/-- External collaborators of getNormalizedContent beyond the walker:
the node-html-parser parse call, the LLM text processor, JSON.parse
(fallible: none models a SyntaxError), and JSON.stringify, over an
abstract type J of parsed JSON values. -/
structure OrchEnv (J : Type) where
  wenv : WalkEnv
  parseHtml : String → HNode
  processText : String → String
  parseJson : String → Option J
  stringify : List J → String

/-- Outcome of a run: the returned responses or the propagated
exception, the final session store, and the successive arguments passed
to the text processor (recorded for the statements about which texts are
sent; the code itself returns only the responses). -/
structure RunOut (J : Type) where
  result : Except Unit (List J)
  store : Store
  sent : List String

/-- The chunk loop of getNormalizedContent (lines 34 to 49): skip a
chunk with no child nodes; otherwise extract its content (threading the
artifact store), sanitize it, send it to the text processor and parse
the reply, pushing the parsed value; a parse failure aborts the whole
loop, discarding the collected responses. -/
def processChunks {J : Type} (env : OrchEnv J) (url : String) :
    List HNode → Store → List J → RunOut J
  | [], σ, acc => ⟨.ok acc, σ, []⟩
  | c :: cs, σ, acc =>
    if c.childNodes.length = 0 then processChunks env url cs σ acc
    else
      let r := extractContentWithTablesAndImages env.wenv c url σ
      let s1 := sanitizeContent r.1
      match env.parseJson (env.processText s1) with
      | none => ⟨.error (), r.2, [s1]⟩
      | some j =>
        let rest := processChunks env url cs r.2 (acc ++ [j])
        ⟨rest.result, rest.store, s1 :: rest.sent⟩

/-- The getNormalizedContent method (lines 25 to 53): parse, chunk at
MAX_CHUNK_SIZE, run the chunk loop from the empty session store, and on
success persist the stringified responses as result.txt; the write is
not reached when the loop aborts. -/
def getNormalizedContent {J : Type} (env : OrchEnv J)
    (htmlContent originalUrl : String) : RunOut J :=
  let chunks := chunkHTML (env.parseHtml htmlContent) MAX_CHUNK_SIZE
  let r := processChunks env originalUrl chunks emptyStore []
  match r.result with
  | .ok responses =>
    ⟨.ok responses,
      saveToFile "result.txt" (.textData (env.stringify responses)) r.store, r.sent⟩
  | .error e => ⟨.error e, r.store, r.sent⟩

/-- The text a chunk contributes, which by the refinement theorem does
not depend on the store the walker threads. -/
def chunkText (env : WalkEnv) (url : String) (c : HNode) : String :=
  joinPieces (walkPiecesList env url c.childNodes)

theorem extract_fst_eq_chunkText (env : WalkEnv) (c : HNode) (url : String)
    (σ : Store) :
    (extractContentWithTablesAndImages env c url σ).1 = chunkText env url c :=
  traverseList_fst env url c.childNodes σ

theorem processChunks_store {J : Type} (env : OrchEnv J) (url : String) :
    ∀ (l : List HNode) (σ : Store) (acc : List J),
      (processChunks env url l σ acc).store "result.txt" = σ "result.txt" := by
  intro l
  induction l with
  | nil => intro σ acc; rfl
  | cons c cs ih =>
    intro σ acc
    by_cases h0 : c.childNodes.length = 0
    · rw [show processChunks env url (c :: cs) σ acc =
        processChunks env url cs σ acc from by simp [processChunks, h0]]
      exact ih σ acc
    · have hσ : (extractContentWithTablesAndImages env.wenv c url σ).2 "result.txt" =
          σ "result.txt" := traverseList_result env.wenv url c.childNodes σ
      rw [show processChunks env url (c :: cs) σ acc =
          (match env.parseJson (env.processText (sanitizeContent
              (extractContentWithTablesAndImages env.wenv c url σ).1)) with
            | none => ⟨.error (), (extractContentWithTablesAndImages env.wenv c url σ).2,
                [sanitizeContent (extractContentWithTablesAndImages env.wenv c url σ).1]⟩
            | some j =>
              let rest := processChunks env url cs
                (extractContentWithTablesAndImages env.wenv c url σ).2 (acc ++ [j])
              ⟨rest.result, rest.store,
                sanitizeContent (extractContentWithTablesAndImages env.wenv c url σ).1
                  :: rest.sent⟩ : RunOut J) from by simp [processChunks, h0]]
      cases env.parseJson (env.processText (sanitizeContent
          (extractContentWithTablesAndImages env.wenv c url σ).1)) with
      | none => exact hσ
      | some j =>
        simp only
        rw [ih (extractContentWithTablesAndImages env.wenv c url σ).2 (acc ++ [j])]
        exact hσ

theorem processChunks_error {J : Type} (env : OrchEnv J) (url : String)
    (l : List HNode)
    (h : ∃ c ∈ l, c.childNodes.length ≠ 0 ∧
      env.parseJson (env.processText (sanitizeContent (chunkText env.wenv url c))) =
        none) :
    ∀ (σ : Store) (acc : List J),
      (processChunks env url l σ acc).result = .error () := by
  induction l with
  | nil => exact absurd h (by simp)
  | cons c cs ih =>
    intro σ acc
    by_cases h0 : c.childNodes.length = 0
    · rw [show processChunks env url (c :: cs) σ acc =
        processChunks env url cs σ acc from by simp [processChunks, h0]]
      rcases h with ⟨c0, hc0, hlen, hpj⟩
      rcases List.mem_cons.mp hc0 with hceq | hmem
      · exact absurd (hceq ▸ h0) hlen
      · exact ih ⟨c0, hmem, hlen, hpj⟩ σ acc
    · have htext : sanitizeContent (extractContentWithTablesAndImages env.wenv c url σ).1 =
          sanitizeContent (chunkText env.wenv url c) := by
        rw [extract_fst_eq_chunkText]
      rw [show processChunks env url (c :: cs) σ acc =
          (match env.parseJson (env.processText (sanitizeContent
              (extractContentWithTablesAndImages env.wenv c url σ).1)) with
            | none => ⟨.error (), (extractContentWithTablesAndImages env.wenv c url σ).2,
                [sanitizeContent (extractContentWithTablesAndImages env.wenv c url σ).1]⟩
            | some j =>
              let rest := processChunks env url cs
                (extractContentWithTablesAndImages env.wenv c url σ).2 (acc ++ [j])
              ⟨rest.result, rest.store,
                sanitizeContent (extractContentWithTablesAndImages env.wenv c url σ).1
                  :: rest.sent⟩ : RunOut J) from by simp [processChunks, h0]]
      rw [htext]
      cases hpj : env.parseJson (env.processText (sanitizeContent
          (chunkText env.wenv url c))) with
      | none => rfl
      | some j =>
        simp only
        rcases h with ⟨c0, hc0, hlen, hpj0⟩
        rcases List.mem_cons.mp hc0 with hceq | hmem
        · rw [← hceq] at hpj; rw [hpj0] at hpj; exact absurd hpj (by simp)
        · exact ih ⟨c0, hmem, hlen, hpj0⟩ _ _

/-- C6: If the text processor's reply fails JSON parsing for some chunk
that is actually processed, the whole run fails: getNormalizedContent
propagates the error, the collected responses are discarded (the result
is the bare error, carrying no partial response sequence), and no
result.txt artifact is persisted in the session store. -/
theorem C6_parse_failure_hard {J : Type} (env : OrchEnv J) (html url : String)
    (h : ∃ c ∈ chunkHTML (env.parseHtml html) MAX_CHUNK_SIZE,
      c.childNodes.length ≠ 0 ∧
      env.parseJson (env.processText (sanitizeContent (chunkText env.wenv url c))) =
        none) :
    (getNormalizedContent env html url).result = .error () ∧
    (getNormalizedContent env html url).store "result.txt" = none := by
  have herr := processChunks_error env url
    (chunkHTML (env.parseHtml html) MAX_CHUNK_SIZE) h emptyStore []
  have hst := processChunks_store env url
    (chunkHTML (env.parseHtml html) MAX_CHUNK_SIZE) emptyStore []
  constructor
  · simp only [getNormalizedContent, herr]
  · simp only [getNormalizedContent, herr]
    rw [hst]
    rfl

def c6Env : OrchEnv Unit :=
  ⟨⟨fun _ => "h", fun _ => [], fun s0 _ => s0⟩,
   fun _ => HNode.root [HNode.elem "p" [] []],
   fun _ => "x", fun _ => none, fun _ => ""⟩

/-- Witness for C6: a one-paragraph document whose processed reply never
parses: the run errors and stores no result.txt. -/
theorem C6_parse_failure_hard_witness :
    (∃ c ∈ chunkHTML (c6Env.parseHtml "s") MAX_CHUNK_SIZE,
      c.childNodes.length ≠ 0 ∧
      c6Env.parseJson (c6Env.processText (sanitizeContent (chunkText c6Env.wenv "u" c))) =
        none) ∧
    (getNormalizedContent c6Env "s" "u").result = .error () ∧
    (getNormalizedContent c6Env "s" "u").store "result.txt" = none :=
  ⟨by decide, C6_parse_failure_hard c6Env "s" "u" (by decide)⟩

/-- C10: On a document with no top-level element nodes the chunker
returns exactly one chunk, the parse root holding the synthetic seed
div, whose child-node count is nonzero, so the zero-child skip never
fires and the text processor is invoked exactly once, with the empty
sanitized string. -/
theorem C10_empty_document {J : Type} (env : OrchEnv J) (html url : String)
    (h : ∀ c ∈ (env.parseHtml html).childNodes, c.isHTMLElement = false) :
    chunkHTML (env.parseHtml html) MAX_CHUNK_SIZE = [HNode.root [seedDiv]] ∧
    (∀ c ∈ chunkHTML (env.parseHtml html) MAX_CHUNK_SIZE,
      c.childNodes.length ≠ 0) ∧
    (getNormalizedContent env html url).sent = [""] := by
  have hch := chunkHTML_no_elems (env.parseHtml html) MAX_CHUNK_SIZE h
  have hext : (extractContentWithTablesAndImages env.wenv (HNode.root [seedDiv])
      url emptyStore).1 = "" := by
    simp [extractContentWithTablesAndImages, HNode.childNodes, traverseList,
      traverseNode, seedDiv, upperStr, upperC]
  have hrun : (processChunks env url [HNode.root [seedDiv]] emptyStore []).sent =
      [""] := by
    rw [show processChunks env url [HNode.root [seedDiv]] emptyStore [] =
        (match env.parseJson (env.processText (sanitizeContent
            (extractContentWithTablesAndImages env.wenv (HNode.root [seedDiv])
              url emptyStore).1)) with
          | none => ⟨.error (),
              (extractContentWithTablesAndImages env.wenv (HNode.root [seedDiv])
                url emptyStore).2,
              [sanitizeContent (extractContentWithTablesAndImages env.wenv
                (HNode.root [seedDiv]) url emptyStore).1]⟩
          | some j =>
            let rest := processChunks env url []
              (extractContentWithTablesAndImages env.wenv (HNode.root [seedDiv])
                url emptyStore).2 ([] ++ [j])
            ⟨rest.result, rest.store,
              sanitizeContent (extractContentWithTablesAndImages env.wenv
                (HNode.root [seedDiv]) url emptyStore).1 :: rest.sent⟩ : RunOut J)
        from by simp [processChunks, HNode.childNodes]]
    rw [hext, sanitizeContent_empty]
    cases env.parseJson (env.processText "") with
    | none => rfl
    | some j => rfl
  refine ⟨hch, ?_, ?_⟩
  · rw [hch]
    intro c hc
    rw [List.mem_singleton] at hc
    subst hc
    simp [HNode.childNodes]
  · simp only [getNormalizedContent, hch]
    cases hres : (processChunks env url [HNode.root [seedDiv]] emptyStore []).result with
    | ok rs => simp only [hres]; exact hrun
    | error e => simp only [hres]; exact hrun

def c10Env : OrchEnv Unit :=
  ⟨⟨fun _ => "h", fun _ => [], fun s0 _ => s0⟩,
   fun _ => HNode.root [HNode.text "hi"],
   fun _ => "x", fun _ => some (), fun _ => ""⟩

/-- Witness for C10: a document holding only a text node yields the one
seed chunk and a single empty text-processor call. -/
theorem C10_empty_document_witness :
    (∀ c ∈ (c10Env.parseHtml "hi").childNodes, c.isHTMLElement = false) ∧
    (chunkHTML (c10Env.parseHtml "hi") MAX_CHUNK_SIZE = [HNode.root [seedDiv]] ∧
      (∀ c ∈ chunkHTML (c10Env.parseHtml "hi") MAX_CHUNK_SIZE,
        c.childNodes.length ≠ 0) ∧
      (getNormalizedContent c10Env "hi" "u").sent = [""]) :=
  ⟨by decide, C10_empty_document c10Env "hi" "u" (by decide)⟩

end ParserService

